import Mathlib

/-!
Verification model of the `matrix` library (files `Matrix.cpp`, `MatrixView.cpp`,
`Matrix.h`).

Modelling conventions.

Cells are modelled as exact rationals (`ℚ`).  The C++ code stores `double`s, and
several operations (`transposed`, `operator/` vertical concatenation, matrix
multiplication, `identity`) materialize their result by printing every cell to a
`std::stringstream` with default formatting (6 significant decimal digits, the
`%g` style of `operator<<` at the default precision 6) and then re-parsing that
text as a fresh `Matrix`.  In the model this print-and-reparse round-trip is the
function `round6`, rounding a rational to 6 significant decimal digits (round to
nearest; the exact tie behaviour of the C library does not matter for any
theorem below, none of which evaluates `round6` on a tie).  On the witness and
counterexample matrices used below every cell and every intermediate value is
exactly representable both as a `double` and as a 6-significant-digit decimal or
its rounding, so the `ℚ` model and IEEE `double` arithmetic agree on them
exactly.

A `Matrix` holds its dimensions and a total entry function; the C++ object
stores a `std::map` whose key set is exactly `[1..height] × [1..width]` (an
invariant every constructor establishes), and `map::at` on an absent key throws
`std::out_of_range`.  Accordingly `getAt`/`writeCell` guard the rectangle and
return the out-of-range error outside it; the value of the entry function
outside the rectangle is irrelevant junk.

Degenerate sizes: a stream-parsed matrix is `0 × 0` whenever the printed text
has no non-empty line, which is why the materializing operations collapse
empty-width or empty-height results to `0 × 0`; the model reproduces this.  The
`determinant` of a `0 × 0` matrix is undefined behaviour in the C++ source
(`std::generate` over `coords.begin() + 1` of an empty vector); the model gives
the empty cofactor sum `0`, and every theorem about `determinant`/`inverse`
below is stated for matrices of positive size.

Error kinds follow the specification's taxonomy (shape mismatch, out of range,
nonsquare, singular, address malformed); the C++ code signals them with
`std::invalid_argument` / `std::out_of_range` / `std::domain_error` exceptions.
-/

namespace Mx

/-- Kernel-computable addition on `ℚ` (the library's `Rat.add` is marked
irreducible, which blocks `decide`); proved equal to `+` below. -/
def qadd (a b : ℚ) : ℚ := Rat.divInt (a.num * b.den + b.num * a.den) (a.den * b.den)

/-- Kernel-computable multiplication on `ℚ`; proved equal to `*` below. -/
def qmul (a b : ℚ) : ℚ := Rat.divInt (a.num * b.num) (a.den * b.den)

/-- Kernel-computable subtraction on `ℚ`; proved equal to `-` below. -/
def qsub (a b : ℚ) : ℚ := qadd a (-b)

/-- Kernel-computable division on `ℚ` (0 for a zero divisor, like `/` on `ℚ`);
proved equal to `/` below. -/
def qdiv (a b : ℚ) : ℚ := Rat.divInt (a.num * b.den) (a.den * b.num)

/-- Kernel-computable sum of a list of rationals; proved equal to `List.sum`
below. -/
def qsum (l : List ℚ) : ℚ := l.foldr qadd 0

/-- Number of decimal digits of a natural number, with explicit recursion fuel. -/
def ndigitsF : Nat → Nat → Nat
  | 0, _ => 0
  | fuel + 1, n => if n < 10 then 1 else ndigitsF fuel (n / 10) + 1

/-- Number of decimal digits of a natural number (`nd 0 = 1`). -/
def nd (n : Nat) : Nat := ndigitsF n n

/-- Floor of the base-10 logarithm of `|q|` for a nonzero rational `q`,
computed with integer arithmetic only. -/
def qlog10i (q : ℚ) : Int :=
  let a := q.num.natAbs
  let b := q.den
  let e0 : Int := (nd a : Int) - (nd b : Int)
  if (if 0 ≤ e0 then 10 ^ e0.toNat * b ≤ a else b ≤ 10 ^ (-e0).toNat * a)
  then e0 else e0 - 1

/-- Rounding a rational to 6 significant decimal digits: the model of printing
a `double` with default stream formatting and re-parsing the text.  Computed
with integer arithmetic (`Int` division is Euclidean division, which is floor
division here because every divisor is positive). -/
def round6 (q : ℚ) : ℚ :=
  if q.num = 0 then 0
  else
    let e := qlog10i q
    if 5 ≤ e then
      let p : Nat := 10 ^ (e - 5).toNat
      let m : Int := (2 * q.num + (q.den : Int) * p) / (2 * (q.den : Int) * p)
      mkRat (m * p) 1
    else
      let p : Nat := 10 ^ (5 - e).toNat
      let m : Int := (2 * q.num * p + (q.den : Int)) / (2 * (q.den : Int))
      mkRat m p

/-- The error kinds of the specification. -/
inductive MatErr where
  | shapeMismatch
  | outOfRange
  | nonsquare
  | singular
  | addressMalformed
  deriving DecidableEq, Repr

/-- Model of `matrix::Matrix`: dimensions plus a total entry function,
1-indexed.  The entry function outside `[1..height] × [1..width]` is junk (the
C++ map simply has no such key). -/
structure Matrix where
  height : Nat
  width : Nat
  entry : Nat → Nat → ℚ

/-- The empty matrix (`Matrix::Matrix()`), and the result of parsing a stream
with no non-empty line. -/
def emptyM : Matrix := ⟨0, 0, fun _ _ => 0⟩

/-- The coordinate `(r, c)` names a key actually present in the matrix's map. -/
def inB (M : Matrix) (r c : Nat) : Prop :=
  1 ≤ r ∧ r ≤ M.height ∧ 1 ≤ c ∧ c ≤ M.width

instance (M : Matrix) (r c : Nat) : Decidable (inB M r c) := by
  unfold inB; infer_instance

/-- Model of `Matrix::operator() const` (a `map::at` lookup): the stored value
inside the rectangle, `std::out_of_range` outside it. -/
def getAt (M : Matrix) (r c : Nat) : Except MatErr ℚ :=
  if inB M r c then .ok (M.entry r c) else .error .outOfRange

/-- Model of assigning through `Matrix::operator()` (non-const): `map::at`
throws on an absent key, otherwise the mapped value is overwritten. -/
def writeCell (M : Matrix) (r c : Nat) (v : ℚ) : Option Matrix :=
  if inB M r c then
    some ⟨M.height, M.width, fun i j => if i = r ∧ j = c then v else M.entry i j⟩
  else none

/-- Shape equality, `Matrix::isSameShape`. -/
def isSameShape (A B : Matrix) : Prop :=
  A.width = B.width ∧ A.height = B.height

instance (A B : Matrix) : Decidable (isSameShape A B) := by
  unfold isSameShape; infer_instance

/-- Entry-level transpose with the 6-digit materialization, before the
degenerate-size collapse. -/
def transposedE (M : Matrix) : Matrix :=
  ⟨M.width, M.height, fun i j => round6 (M.entry j i)⟩

/-- Model of `Matrix::transposed()`: each cell is printed with default stream
formatting and re-parsed, so each cell of the result is `round6` of the source
cell; a source with no rows or no columns prints no non-empty line and parses
back as the `0 × 0` matrix. -/
def transposed (M : Matrix) : Matrix :=
  if M.height = 0 ∨ M.width = 0 then emptyM else transposedE M

/-- Model of `Matrix::identity`: the printed text holds only the literals `0`
and `1`, which re-parse exactly. -/
def identity (n : Nat) : Matrix :=
  ⟨n, n, fun i j => if i = j then 1 else 0⟩

/-- Entry-level vertical concatenation (`operator/`) with the 6-digit
materialization, assuming equal widths, before the degenerate-size collapse. -/
def vconcatE (A B : Matrix) : Matrix :=
  if A.width = 0 then emptyM
  else
    ⟨A.height + B.height, A.width,
      fun i j => round6 (if i ≤ A.height then A.entry i j else B.entry (i - A.height) j)⟩

/-- Model of `operator/ (const Matrix&, const Matrix&)`: vertical concatenation
via printing both operands and re-parsing. -/
def vconcat (A B : Matrix) : Except MatErr Matrix :=
  if A.width ≠ B.width then .error .shapeMismatch else .ok (vconcatE A B)

/-- Entry-level horizontal concatenation: the C++ source literally computes
`(lhsᵀ / rhsᵀ)ᵀ`. -/
def hconcatE (A B : Matrix) : Matrix :=
  transposed (vconcatE (transposed A) (transposed B))

/-- Model of `operator| (const Matrix&, const Matrix&)`: checks the heights and
delegates to `(lhsᵀ / rhsᵀ)ᵀ`; the inner `operator/` re-checks the transposed
widths. -/
def hconcat (A B : Matrix) : Except MatErr Matrix :=
  if A.height ≠ B.height then .error .shapeMismatch
  else (vconcat (transposed A) (transposed B)).map transposed

/-- The readable rectangle presented by an (in-bounds) `MatrixView` with corners
`(r1, c1)` and `(r2, c2)`: apparent size `r2 − r1 + 1` by `c2 − c1 + 1`, local
cell `(r, c)` delegating to source cell `(r1 + r − 1, c1 + c − 1)`. -/
def viewRect (M : Matrix) (r1 c1 r2 c2 : Nat) : Matrix :=
  ⟨r2 + 1 - r1, c2 + 1 - c1, fun r c => M.entry (r1 + r - 1) (c1 + c - 1)⟩

/-- The row view `M > "R" + r` as a readable rectangle. -/
def rowRect (M : Matrix) (r : Nat) : Matrix := viewRect M r 1 r M.width

/-- The column view `M > "C" + c` as a readable rectangle. -/
def colRect (M : Matrix) (c : Nat) : Matrix := viewRect M 1 c M.height c

/-- The dot product computed in `Matrix::operator*= (const Matrix&)`:
`leftRow (1, i) * rightTransposedColumn (1, i)` summed over `i = 1 .. width`,
where `rightTransposedColumn` is the materialized (hence 6-digit rounded)
transpose of the right operand's column view. -/
def dotProd (A B : Matrix) (r c : Nat) : ℚ :=
  qsum ((List.range A.width).map
    (fun k => qmul ((rowRect A r).entry 1 (k + 1)) ((transposed (colRect B c)).entry 1 (k + 1))))

/-- The value matrix of `Matrix::operator*= (const Matrix&)` after the shape
check: each dot product is printed with default stream formatting and the text
is re-parsed, so each cell is `round6` of the accumulated dot product; when the
printed text has no non-empty line the result collapses to `0 × 0`. -/
def matMulE (A B : Matrix) : Matrix :=
  if A.height = 0 ∨ B.width = 0 then emptyM
  else ⟨A.height, B.width, fun r c => round6 (dotProd A B r c)⟩

/-- Model of `Matrix::operator*` / `operator*=` for matrices. -/
def matMul (A B : Matrix) : Except MatErr Matrix :=
  if A.width ≠ B.height then .error .shapeMismatch else .ok (matMulE A B)

/-- The sign function of `_Matrix::determinant`: negate on even column numbers. -/
def sgnq (j : Nat) : ℚ := if j % 2 = 0 then -1 else 1

/-- Model of `_Matrix::determinant` on a readable rectangle of side `n` (the
C++ code uses `matrix.width()` as the side): cofactor expansion along row 1.
The minor of column 1 is the bottom-right view, the minor of column `n` the
bottom-left view, and an interior minor is the horizontal concatenation of the
two flanking views — which materializes through text and therefore rounds the
minor's entries to 6 significant digits. -/
def detN : Nat → Matrix → ℚ
  | 0, _ => 0
  | 1, M => M.entry 1 1
  | 2, M => qsub (qmul (M.entry 1 1) (M.entry 2 2)) (qmul (M.entry 1 2) (M.entry 2 1))
  | n + 3, M =>
    qsum ((List.range (n + 3)).map (fun k =>
      if k + 1 = 1 then
        qmul (M.entry 1 (k + 1)) (detN (n + 2) (viewRect M 2 2 (n + 3) (n + 3)))
      else if k + 1 = n + 3 then
        qmul (qmul (sgnq (k + 1)) (M.entry 1 (k + 1)))
          (detN (n + 2) (viewRect M 2 1 (n + 3) (n + 2)))
      else
        qmul (qmul (sgnq (k + 1)) (M.entry 1 (k + 1)))
          (detN (n + 2) (hconcatE (viewRect M 2 1 (n + 3) (k + 1 - 1))
                                  (viewRect M 2 (k + 1 + 1) (n + 3) (n + 3))))))

/-- Model of `Matrix::determinant()`: square check, then the recursive cofactor
expansion. -/
def determinant (M : Matrix) : Except MatErr ℚ :=
  if M.width ≠ M.height then .error .nonsquare else .ok (detN M.width M)

/-- Modelled from the spec's determinant description (§4.4 of the specification
and claim C3): cofactor expansion along the first row where `M₁ⱼ` is the exact
minor obtained by deleting row 1 and column `j`, with no re-materialization of
any entry.  This is the comparison definition for the refinement claim about
`detN`. -/
def specDetN : Nat → (Nat → Nat → ℚ) → ℚ
  | 0, _ => 0
  | 1, f => f 1 1
  | 2, f => f 1 1 * f 2 2 - f 1 2 * f 2 1
  | n + 3, f =>
    ((List.range (n + 3)).map (fun k =>
      sgnq (k + 1) * f 1 (k + 1) *
        specDetN (n + 2) (fun r c => f (r + 1) (if c < k + 1 then c else c + 1)))).sum

/-- Dividing row `r` of a matrix by a scalar in place
(`MatrixView::operator/=` on a row view).  A zero divisor yields 0 cells in the
model where IEEE arithmetic yields ±infinity or NaN; no theorem below depends
on a value produced by a division by zero. -/
def divRow (M : Matrix) (r : Nat) (p : ℚ) : Matrix :=
  ⟨M.height, M.width, fun i j => if i = r then qdiv (M.entry i j) p else M.entry i j⟩

/-- Subtracting the vector `v` from row `r2` of a matrix in place
(`operator-=` through a row view). -/
def subRow (M : Matrix) (r2 : Nat) (v : Nat → ℚ) : Matrix :=
  ⟨M.height, M.width, fun i j => if i = r2 then qsub (M.entry i j) (v j) else M.entry i j⟩

/-- One elimination step of `Matrix::inverse()` for another row `r2`: skip the
pivot row, otherwise subtract `tmp (r2, r)` times the (already divided) pivot
row from row `r2` of both targets. -/
def gjElim (r : Nat) (st : Matrix × Matrix) (r2 : Nat) : Matrix × Matrix :=
  if r2 = r then st
  else
    let f := st.1.entry r2 r
    (subRow st.1 r2 (fun j => qmul f (st.1.entry r j)),
     subRow st.2 r2 (fun j => qmul f (st.2.entry r j)))

/-- One pivot round of `Matrix::inverse()`: divide row `r` of both targets by
the diagonal element `tmp (r, r)` (no pivot search), then eliminate every other
row. -/
def gjPivot (n : Nat) (st : Matrix × Matrix) (r : Nat) : Matrix × Matrix :=
  let p := st.1.entry r r
  let st1 := (divRow st.1 r p, divRow st.2 r p)
  (List.range n).foldl (fun s k => gjElim r s (k + 1)) st1

/-- Model of `Matrix::inverse()`: `determinant()` first (which throws
`nonsquare` on a non-square input), then the singular check, then Gauss–Jordan
elimination on the internal copies `tmp` (a copy of the input) and `inverse`
(an identity matrix); the second component is returned.  The input matrix
itself is only ever read. -/
def inverse (M : Matrix) : Except MatErr Matrix :=
  match determinant M with
  | .error er => .error er
  | .ok d =>
    if d = 0 then .error .singular
    else
      .ok (((List.range M.height).foldl (fun s k => gjPivot M.height s (k + 1))
          (M, identity M.width)).2)

/-- Model of `MatrixView::_MatrixView`: the head coordinates and the apparent
dimensions (the borrowed source matrix is passed separately to each
operation). -/
structure MatrixView where
  headRow : Nat
  headColumn : Nat
  width : Nat
  height : Nat
  deriving DecidableEq, Repr

/-- Truncation to the 64-bit unsigned coordinate type `coord_t`. -/
def wrap64 (n : Nat) : Nat := n % 2 ^ 64

/-- Model of the `MatrixView` constructor: the apparent dimensions are computed
as `c2 - c1 + 1` and `r2 - r1 + 1` in `coord_t` (unsigned 64-bit) arithmetic,
and the only validation is that neither corner exceeds the source's
dimensions — there is no `1 ≤ r1`, `1 ≤ c1`, `r1 ≤ r2` or `c1 ≤ c2` check.
The argument coordinates are `coord_t` values, hence below `2 ^ 64`. -/
def mkView (M : Matrix) (r1 c1 r2 c2 : Nat) : Except MatErr MatrixView :=
  if r1 > M.height ∨ r2 > M.height ∨ c1 > M.width ∨ c2 > M.width then
    .error .outOfRange
  else
    .ok ⟨r1, c1, wrap64 (c2 + 2 ^ 64 - c1 + 1), wrap64 (r2 + 2 ^ 64 - r1 + 1)⟩

/-- Model of `MatrixView::operator() const`: translate the local coordinates and
delegate to the source's `map::at`; the view's own apparent bounds are never
consulted. -/
def viewAt (M : Matrix) (V : MatrixView) (r c : Nat) : Except MatErr ℚ :=
  getAt M (V.headRow + r - 1) (V.headColumn + c - 1)

/-- Model of writing through `MatrixView::operator()`: translate and write
through the source's `map::at`. -/
def viewWrite (M : Matrix) (V : MatrixView) (r c : Nat) (v : ℚ) : Option Matrix :=
  writeCell M (V.headRow + r - 1) (V.headColumn + c - 1) v

/-- Characters `std::strtoll` skips as leading whitespace. -/
def isSpaceC (ch : Char) : Bool :=
  ch = ' ' || ch = '\t' || ch = '\n' || ch = '\r' ||
    ch = Char.ofNat 11 || ch = Char.ofNat 12

/-- Model of `std::stoll` on the address suffix: skip whitespace, read an
optional sign and a nonempty digit run; no digits is `std::invalid_argument`
(the *address malformed* kind), a value outside `long long` is
`std::out_of_range`. -/
def stollVal (neg : Bool) (mag : Nat) : Except MatErr Int :=
  let sv : Int := if neg then -(mag : Int) else (mag : Int)
  if sv < -(2 ^ 63) then .error .outOfRange
  else if 2 ^ 63 - 1 < sv then .error .outOfRange
  else .ok sv

def stoll (s : List Char) : Except MatErr Int :=
  let s1 := s.dropWhile isSpaceC
  let core : Bool × List Char :=
    match s1 with
    | '-' :: rest => (true, rest)
    | '+' :: rest => (false, rest)
    | rest => (false, rest)
  let ds := core.2.takeWhile Char.isDigit
  if ds = [] then .error .addressMalformed
  else stollVal core.1 (ds.foldl (fun a ch => a * 10 + (ch.toNat - 48)) 0)

/-- Model of `operator> (const Matrix&, const std::string&)`: `substr(1)`
throws `std::out_of_range` on an empty address; then `stoll` parses the suffix
(before the first character is even looked at), the parsed `long long` is
converted to the unsigned `coord_t` (a reduction mod `2 ^ 64`), and the first
character selects a full-width row view, a full-height column view, or the
*address malformed* failure. -/
def addressor (M : Matrix) (s : List Char) : Except MatErr MatrixView :=
  match s with
  | [] => .error .outOfRange
  | ch :: rest =>
    match stoll rest with
    | .error er => .error er
    | .ok v =>
      let number : Nat := (v % (2 : Int) ^ 64).toNat
      if ch = 'R' then mkView M number 1 number M.width
      else if ch = 'C' then mkView M 1 number M.height number
      else .error .addressMalformed

/-- The cell offsets `(rOffset, cOffset)` visited by `Matrix::setAt`, in
iteration order (row-major over the overlay). -/
def cellsList (sh sw : Nat) : List (Nat × Nat) :=
  (List.range sh).flatMap (fun i => (List.range sw).map (fun j => (i + 1, j + 1)))

/-- The cell-by-cell loop of `Matrix::setAt`: each target write goes through
`map::at`, so the first out-of-range target throws, keeping every write made
before it. -/
def setAtGo (r c : Nat) (sub : Matrix) :
    Matrix → List (Nat × Nat) → Option MatErr × Matrix
  | M, [] => (none, M)
  | M, (a, b) :: rest =>
    match writeCell M (r + a - 1) (c + b - 1) (sub.entry a b) with
    | some M2 => setAtGo r c sub M2 rest
    | none => (some .outOfRange, M)

/-- Model of `Matrix::setAt (r, c, sub)`: overlay `sub` with its `(1,1)` at
`(r, c)`, iterating row-major and validating nothing up front. -/
def setAt (M : Matrix) (r c : Nat) (sub : Matrix) : Option MatErr × Matrix :=
  setAtGo r c sub M (cellsList sub.height sub.width)

/-- Model of `MatrixView::operator= (const Matrix&)` on a view of the source
`src`: require equal apparent shape, then `setAt (1, 1, rhs)` through the view,
which lands at `(headRow, headColumn)` of the source. -/
def assignView (src : Matrix) (V : MatrixView) (rhs : Matrix) : Option MatErr × Matrix :=
  if rhs.width = V.width ∧ rhs.height = V.height then
    setAt src V.headRow V.headColumn rhs
  else (some .shapeMismatch, src)

/-- Decidable test that two matrices have the same shape and identical cells
everywhere inside it (the claim sense of two matrices being equal). -/
def matEqb (A B : Matrix) : Prop :=
  A.height = B.height ∧ A.width = B.width ∧
    ∀ p ∈ cellsList A.height A.width, A.entry p.1 p.2 = B.entry p.1 p.2

instance (A B : Matrix) : Decidable (matEqb A B) := by
  unfold matEqb; infer_instance

deriving instance DecidableEq for Except

/-- The error component of a fallible result, used to state failure facts about
results whose success payload carries no decidable equality. -/
def errOf {α : Type} : Except MatErr α → Option MatErr
  | .error er => some er
  | .ok _ => none

/-- The success component of an addressor result. -/
def okViewOf : Except MatErr MatrixView → Option MatrixView
  | .error _ => none
  | .ok v => some v

/-- The scenario matrix `{{1,2},{3,4}}` of S1. -/
def mS1 : Matrix :=
  ⟨2, 2, fun i j => if i = 1 then (if j = 1 then 1 else 2) else (if j = 1 then 3 else 4)⟩

/-- The all-ones singular `2 × 2` matrix. -/
def mOnes2 : Matrix := ⟨2, 2, fun _ _ => 1⟩

def mS2 : Matrix :=
  ⟨3, 3, fun i j =>
    if i = 1 then (if j = 1 then 6 else if j = 2 then 1 else 1)
    else if i = 2 then (if j = 1 then 4 else if j = 2 then -2 else 5)
    else (if j = 1 then 2 else if j = 2 then 8 else 7)⟩

/-- The `1 × 1` matrix `{{1234567}}` (seven significant digits). -/
def mT1 : Matrix := ⟨1, 1, fun _ _ => 1234567⟩

/-- The `1 × 1` identity-like matrix `{{1}}`. -/
def mU1 : Matrix := ⟨1, 1, fun _ _ => 1⟩

/-- The S5 scenario source `{{1,2,3},{4,5,6},{7,8,9}}`. -/
def mA5 : Matrix :=
  ⟨3, 3, fun i j =>
    if i = 1 then (if j = 1 then 1 else if j = 2 then 2 else 3)
    else if i = 2 then (if j = 1 then 4 else if j = 2 then 5 else 6)
    else (if j = 1 then 7 else if j = 2 then 8 else 9)⟩

/-- The row view `R2` of a `3 × 3` matrix (head `(2, 1)`, apparent `3 × 1`). -/
def vR2 : MatrixView := ⟨2, 1, 3, 1⟩

/-- The overlay `{{0,0,0}}` of S5. -/
def mZrow : Matrix := ⟨1, 3, fun _ _ => 0⟩

/-- The S5 expected result `{{1,2,3},{0,0,0},{7,8,9}}`. -/
def mS5res : Matrix :=
  ⟨3, 3, fun i j =>
    if i = 1 then (if j = 1 then 1 else if j = 2 then 2 else 3)
    else if i = 2 then 0
    else (if j = 1 then 7 else if j = 2 then 8 else 9)⟩

/-- The overlay `{{9,9}}` used to exhibit partial mutation of `setAt`. -/
def mOv9 : Matrix := ⟨1, 2, fun _ _ => 9⟩

/-- The counterexample matrix `{{0,1,0},{1234567,0,0},{0,0,1}}` for the
determinant claim: the only nonzero first-row cofactor goes through an interior
minor whose entries are re-materialized at 6 significant digits. -/
def mC3 : Matrix :=
  ⟨3, 3, fun i j =>
    if i = 1 then (if j = 2 then 1 else 0)
    else if i = 2 then (if j = 1 then 1234567 else 0)
    else (if j = 3 then 1 else 0)⟩

/-- The `1 × 2` row `{{1, 1}}` of the multiply counterexample. -/
def mA9 : Matrix := ⟨1, 2, fun _ _ => 1⟩

/-- The `2 × 1` column `{{1234564}, {4}}` of the multiply counterexample. -/
def mB9 : Matrix := ⟨2, 1, fun r _ => if r = 1 then 1234564 else 4⟩

theorem qadd_eq (a b : ℚ) : qadd a b = a + b := by
  rw [qadd]
  conv_rhs => rw [← Rat.num_divInt_den a, ← Rat.num_divInt_den b]
  rw [Rat.divInt_add_divInt _ _ (Int.natCast_ne_zero.2 a.den_nz)
    (Int.natCast_ne_zero.2 b.den_nz)]

theorem qmul_eq (a b : ℚ) : qmul a b = a * b := by
  rw [qmul, Rat.mul_eq_mkRat, Rat.mkRat_eq_divInt]
  push_cast
  ring_nf

theorem qsub_eq (a b : ℚ) : qsub a b = a - b := by
  rw [qsub, qadd_eq, sub_eq_add_neg]

theorem qdiv_eq (a b : ℚ) : qdiv a b = a / b := by
  rw [qdiv, Rat.div_def']

theorem qsum_eq (l : List ℚ) : qsum l = l.sum := by
  induction l with
  | nil => rfl
  | cons a l ih => rw [qsum, List.foldr_cons, ← qsum, ih, qadd_eq, List.sum_cons]

theorem inB_iff_of_dims {M M2 : Matrix} (hh : M2.height = M.height)
    (hw : M2.width = M.width) (r c : Nat) : inB M2 r c ↔ inB M r c := by
  unfold inB; rw [hh, hw]

theorem mem_cellsList {sh sw : Nat} {p : Nat × Nat} :
    p ∈ cellsList sh sw ↔ 1 ≤ p.1 ∧ p.1 ≤ sh ∧ 1 ≤ p.2 ∧ p.2 ≤ sw := by
  cases p with
  | mk a b =>
    unfold cellsList
    simp only [List.mem_flatMap, List.mem_map, List.mem_range, Prod.mk.injEq]
    constructor
    · rintro ⟨i, hi, j, hj, h1, h2⟩
      omega
    · rintro ⟨h1, h2, h3, h4⟩
      exact ⟨a - 1, by omega, b - 1, by omega, by omega, by omega⟩

theorem writeCell_of_inB {M : Matrix} {r c : Nat} (v : ℚ) (hb : inB M r c) :
    writeCell M r c v =
      some ⟨M.height, M.width, fun i j => if i = r ∧ j = c then v else M.entry i j⟩ := by
  unfold writeCell; rw [if_pos hb]

theorem writeCell_none_iff {M : Matrix} {r c : Nat} {v : ℚ} :
    writeCell M r c v = none ↔ ¬ inB M r c := by
  unfold writeCell
  by_cases hb : inB M r c <;> simp [hb]

/-- Dimensions are preserved by the `setAt` loop, its only error is
*out of range*, and it completes without error exactly when every visited
target lies inside the receiving matrix. -/
theorem setAtGo_spec (r c : Nat) (sub : Matrix) :
    ∀ (l : List (Nat × Nat)) (M : Matrix),
      ((setAtGo r c sub M l).2.height = M.height ∧
        (setAtGo r c sub M l).2.width = M.width) ∧
      ((setAtGo r c sub M l).1 = none ∨ (setAtGo r c sub M l).1 = some .outOfRange) ∧
      ((setAtGo r c sub M l).1 = none ↔
        ∀ p ∈ l, inB M (r + p.1 - 1) (c + p.2 - 1)) := by
  intro l
  induction l with
  | nil =>
    intro M
    simp [setAtGo]
  | cons hd t ih =>
    intro M
    obtain ⟨a, b⟩ := hd
    by_cases hb : inB M (r + a - 1) (c + b - 1)
    · have hw := writeCell_of_inB (M := M) (sub.entry a b) hb
      have hred : setAtGo r c sub M ((a, b) :: t) =
          setAtGo r c sub
            ⟨M.height, M.width,
              fun i j => if i = (r + a - 1) ∧ j = (c + b - 1) then sub.entry a b
                else M.entry i j⟩ t := by
        simp [setAtGo, hw]
      set M2 : Matrix :=
        ⟨M.height, M.width,
          fun i j => if i = (r + a - 1) ∧ j = (c + b - 1) then sub.entry a b
            else M.entry i j⟩ with hM2
      have ihM2 := ih M2
      have hdim : M2.height = M.height ∧ M2.width = M.width := ⟨rfl, rfl⟩
      refine ⟨?_, ?_, ?_⟩
      · rw [hred]
        exact ⟨ihM2.1.1.trans hdim.1, ihM2.1.2.trans hdim.2⟩
      · rw [hred]; exact ihM2.2.1
      · rw [hred, ihM2.2.2]
        constructor
        · intro h p hp
          rcases List.mem_cons.mp hp with heq | hmem
          · subst heq; exact hb
          · exact (inB_iff_of_dims hdim.1 hdim.2 _ _).mp (h p hmem)
        · intro h p hp
          exact (inB_iff_of_dims hdim.1 hdim.2 _ _).mpr (h p (List.mem_cons_of_mem _ hp))
    · have hw : writeCell M (r + a - 1) (c + b - 1) (sub.entry a b) = none :=
        writeCell_none_iff.mpr hb
      have hred : setAtGo r c sub M ((a, b) :: t) = (some .outOfRange, M) := by
        simp [setAtGo, hw]
      rw [hred]
      refine ⟨⟨rfl, rfl⟩, Or.inr rfl, ?_⟩
      simp only [reduceCtorEq, false_iff, not_forall]
      exact ⟨(a, b), List.mem_cons_self _ _, hb⟩

/-- Cell-level effect of the `setAt` loop when every visited target is in
bounds: a visited target holds the corresponding overlay value, every other
cell is untouched. -/
theorem setAtGo_entries (r c : Nat) (sub : Matrix) :
    ∀ (l : List (Nat × Nat)) (M : Matrix),
      (∀ p ∈ l, 1 ≤ p.1 ∧ 1 ≤ p.2) →
      (∀ p ∈ l, inB M (r + p.1 - 1) (c + p.2 - 1)) →
      ∀ i j,
        ((∃ p ∈ l, r + p.1 - 1 = i ∧ c + p.2 - 1 = j) →
          (setAtGo r c sub M l).2.entry i j = sub.entry (i + 1 - r) (j + 1 - c)) ∧
        ((∀ p ∈ l, ¬(r + p.1 - 1 = i ∧ c + p.2 - 1 = j)) →
          (setAtGo r c sub M l).2.entry i j = M.entry i j) := by
  intro l
  induction l with
  | nil =>
    intro M _ _ i j
    constructor
    · rintro ⟨p, hp, -⟩
      cases hp
    · intro _
      rfl
  | cons hd t ih =>
    intro M hpos hall i j
    obtain ⟨a, b⟩ := hd
    have hb : inB M (r + a - 1) (c + b - 1) := hall (a, b) (List.mem_cons_self _ _)
    have hab : 1 ≤ a ∧ 1 ≤ b := hpos (a, b) (List.mem_cons_self _ _)
    have hw := writeCell_of_inB (M := M) (sub.entry a b) hb
    have hred : setAtGo r c sub M ((a, b) :: t) =
        setAtGo r c sub
          ⟨M.height, M.width,
            fun i j => if i = (r + a - 1) ∧ j = (c + b - 1) then sub.entry a b
              else M.entry i j⟩ t := by
      simp [setAtGo, hw]
    set M2 : Matrix :=
      ⟨M.height, M.width,
        fun i j => if i = (r + a - 1) ∧ j = (c + b - 1) then sub.entry a b
          else M.entry i j⟩ with hM2
    have hpos2 : ∀ p ∈ t, 1 ≤ p.1 ∧ 1 ≤ p.2 :=
      fun p hp => hpos p (List.mem_cons_of_mem _ hp)
    have hall2 : ∀ p ∈ t, inB M2 (r + p.1 - 1) (c + p.2 - 1) :=
      fun p hp => (inB_iff_of_dims rfl rfl _ _).mpr (hall p (List.mem_cons_of_mem _ hp))
    have ihM2 := ih M2 hpos2 hall2 i j
    rw [hred]
    constructor
    · rintro ⟨p, hp, hpr, hpc⟩
      by_cases hEx : ∃ p ∈ t, r + p.1 - 1 = i ∧ c + p.2 - 1 = j
      · exact ihM2.1 hEx
      · have hnot : ∀ p ∈ t, ¬(r + p.1 - 1 = i ∧ c + p.2 - 1 = j) := by
          intro p2 hp2 hcon
          exact hEx ⟨p2, hp2, hcon⟩
        rcases List.mem_cons.mp hp with heq | hmem
        · subst heq
          rw [ihM2.2 hnot]
          have hcond : i = (r + a - 1) ∧ j = (c + b - 1) := ⟨hpr.symm, hpc.symm⟩
          show (if i = (r + a - 1) ∧ j = (c + b - 1) then sub.entry a b
            else M.entry i j) = sub.entry (i + 1 - r) (j + 1 - c)
          rw [if_pos hcond]
          have ha2 : a = i + 1 - r := by omega
          have hb2 : b = j + 1 - c := by omega
          rw [ha2, hb2]
        · exact absurd ⟨p, hmem, hpr, hpc⟩ hEx
    · intro hnone
      have hnot : ∀ p ∈ t, ¬(r + p.1 - 1 = i ∧ c + p.2 - 1 = j) :=
        fun p hp => hnone p (List.mem_cons_of_mem _ hp)
      rw [ihM2.2 hnot]
      have hcond : ¬(i = (r + a - 1) ∧ j = (c + b - 1)) := by
        have := hnone (a, b) (List.mem_cons_self _ _)
        intro hcon
        exact this ⟨hcon.1.symm, hcon.2.symm⟩
      show (if i = (r + a - 1) ∧ j = (c + b - 1) then sub.entry a b
        else M.entry i j) = M.entry i j
      rw [if_neg hcond]

theorem transposed_of_pos (M : Matrix) (hh : 1 ≤ M.height) (hw : 1 ≤ M.width) :
    transposed M = transposedE M := by
  rw [transposed, if_neg (by omega)]

/-- C7 (amended): with compatible shapes, `A * B` succeeds with dimensions
`(A.height, B.width)` (positive sizes), and cell `(r, c)` is the 6-digit
rounding of `Σₖ A (r, k) · round6 (B (k, c))` — the right operand's column is
itself re-materialized through text by the `transposed()` call inside
`operator*=`, and the final dot product is printed and re-parsed; with
incompatible shapes the multiplication fails with *shape mismatch* (and, the
model being functional, no operand is changed). -/
theorem C7_matMul_checks (A B : Matrix) :
    (A.width = B.height →
      matMul A B = .ok (matMulE A B) ∧
      (1 ≤ A.height → 1 ≤ B.width →
        (matMulE A B).height = A.height ∧ (matMulE A B).width = B.width ∧
        ∀ r c, (matMulE A B).entry r c =
          round6 (((List.range A.width).map
            (fun k => A.entry r (k + 1) * round6 (B.entry (k + 1) c))).sum))) ∧
    (A.width ≠ B.height → matMul A B = .error .shapeMismatch) := by
  constructor
  · intro hAB
    constructor
    · rw [matMul, if_neg (by omega)]
    · intro hA hB
      have hME : matMulE A B = ⟨A.height, B.width, fun r c => round6 (dotProd A B r c)⟩ := by
        rw [matMulE, if_neg (by omega)]
      refine ⟨by rw [hME], by rw [hME], ?_⟩
      intro r c
      rw [hME]
      show round6 (dotProd A B r c) = _
      congr 1
      rw [dotProd, qsum_eq]
      congr 1
      apply List.map_congr_left
      intro k hk
      have hklt : k < A.width := List.mem_range.mp hk
      have hBh : 1 ≤ B.height := by omega
      rw [qmul_eq]
      have hch : (colRect B c).height = B.height := rfl
      have hcw : (colRect B c).width = 1 := by
        show c + 1 - c = 1
        omega
      congr 1
      · show A.entry (r + 1 - 1) (1 + (k + 1) - 1) = A.entry r (k + 1)
        congr 1
        omega
      · rw [transposed_of_pos _ (by omega) (by omega)]
        show round6 ((colRect B c).entry (k + 1) 1) = round6 (B.entry (k + 1) c)
        congr 1
        show B.entry (1 + (k + 1) - 1) (c + 1 - 1) = B.entry (k + 1) c
        congr 1
        omega
  · intro hAB
    rw [matMul, if_pos hAB]

/-- C7 counterexample: `{{1234567}} * {{1}}` succeeds but its only cell is
1234570, the 6-digit rounding, not the exact dot product 1234567 the claim
requires. -/
theorem C7_counterexample :
    errOf (matMul mT1 mU1) = none ∧
    (matMulE mT1 mU1).entry 1 1 = 1234570 ∧
    mT1.entry 1 1 * mU1.entry 1 1 = 1234567 ∧
    (matMulE mT1 mU1).entry 1 1 ≠ mT1.entry 1 1 * mU1.entry 1 1 := by
  refine ⟨by decide, by decide, ?_, ?_⟩
  · rw [← qmul_eq]; decide
  · rw [← qmul_eq]; decide

/-- C7 witness: a compatible `2 × 2` product succeeds. -/
theorem C7_witness :
    mS1.width = mS1.height ∧ matMul mS1 mS1 = .ok (matMulE mS1 mS1) :=
  ⟨rfl, ((C7_matMul_checks mS1 mS1).1 rfl).1⟩

theorem stollVal_ok_bounds {neg : Bool} {mag : Nat} {v : Int}
    (h : stollVal neg mag = .ok v) : -(2 ^ 63) ≤ v ∧ v ≤ 2 ^ 63 - 1 := by
  cases neg with
  | false =>
    have h2 : (if (mag : Int) < -(2 ^ 63) then (Except.error MatErr.outOfRange : Except MatErr Int)
        else if 2 ^ 63 - 1 < (mag : Int) then .error .outOfRange
        else .ok (mag : Int)) = .ok v := h
    by_cases hc1 : (mag : Int) < -(2 ^ 63)
    · rw [if_pos hc1] at h2; cases h2
    · rw [if_neg hc1] at h2
      by_cases hc2 : (2 : Int) ^ 63 - 1 < (mag : Int)
      · rw [if_pos hc2] at h2; cases h2
      · rw [if_neg hc2] at h2; cases h2; omega
  | true =>
    have h2 : (if -(mag : Int) < -(2 ^ 63) then (Except.error MatErr.outOfRange : Except MatErr Int)
        else if 2 ^ 63 - 1 < -(mag : Int) then .error .outOfRange
        else .ok (-(mag : Int))) = .ok v := h
    by_cases hc1 : -(mag : Int) < -(2 ^ 63)
    · rw [if_pos hc1] at h2; cases h2
    · rw [if_neg hc1] at h2
      by_cases hc2 : (2 : Int) ^ 63 - 1 < -(mag : Int)
      · rw [if_pos hc2] at h2; cases h2
      · rw [if_neg hc2] at h2; cases h2; omega

theorem stoll_ok_bounds {s : List Char} {v : Int} (h : stoll s = .ok v) :
    -(2 ^ 63) ≤ v ∧ v ≤ 2 ^ 63 - 1 := by
  simp only [stoll] at h
  split at h
  · cases h
  · exact stollVal_ok_bounds h

/-- C8 (amended): the addressor `M > "R" + n` with `1 ≤ n ≤ M.height` yields a
view headed at `(n, 1)` of apparent width `M.width` and height 1 whose cell
`(1, j)` reads `M (n, j)`; `n` greater than `M.height` fails with
*out of range*; but `n = 0` is accepted (the constructor never checks the lower
bound), yielding a view headed at row 0 whose reads all fail; a first character
other than `R`/`C` fails with *address malformed*, as does an address whose
suffix holds no digits (`std::stoll` throws first), while an empty address
fails with *out of range* (from `substr`). -/
theorem C8_addressor_checks (M : Matrix) :
    (∀ (s : List Char) (n : Nat), stoll s = .ok (n : Int) →
      1 ≤ n → n ≤ M.height → 1 ≤ M.width → M.width < 2 ^ 64 →
      addressor M ('R' :: s) = .ok ⟨n, 1, M.width, 1⟩ ∧
      ∀ j, 1 ≤ j → j ≤ M.width →
        viewAt M ⟨n, 1, M.width, 1⟩ 1 j = .ok (M.entry n j)) ∧
    (∀ (s : List Char) (n : Nat), stoll s = .ok (n : Int) →
      n > M.height → addressor M ('R' :: s) = .error .outOfRange) ∧
    (∀ s : List Char, stoll s = .ok 0 → 1 ≤ M.width → M.width < 2 ^ 64 →
      addressor M ('R' :: s) = .ok ⟨0, 1, M.width, 1⟩) ∧
    (∀ (ch : Char) (s : List Char) (v : Int), ch ≠ 'R' → ch ≠ 'C' →
      stoll s = .ok v → addressor M (ch :: s) = .error .addressMalformed) ∧
    (∀ (ch : Char) (s : List Char), stoll s = .error .addressMalformed →
      addressor M (ch :: s) = .error .addressMalformed) ∧
    addressor M [] = .error .outOfRange := by
  have hmod : ∀ n : Nat, (n : Int) ≤ 2 ^ 63 - 1 → (((n : Int) % (2 : Int) ^ 64).toNat = n) := by
    intro n hn
    rw [Int.emod_eq_of_lt (by omega) (by omega), Int.toNat_natCast]
  refine ⟨?_, ?_, ?_, ?_, ?_, rfl⟩
  · intro s n hv h1 h2 h3 h4
    have hb := stoll_ok_bounds hv
    constructor
    · show (match stoll s with
        | .error er => .error er
        | .ok v =>
          let number : Nat := (v % (2 : Int) ^ 64).toNat
          if 'R' = 'R' then mkView M number 1 number M.width
          else if 'R' = 'C' then mkView M 1 number M.height number
          else .error .addressMalformed) = Except.ok (⟨n, 1, M.width, 1⟩ : MatrixView)
      rw [hv]
      show (if 'R' = 'R' then mkView M ((n : Int) % (2 : Int) ^ 64).toNat 1
          ((n : Int) % (2 : Int) ^ 64).toNat M.width
        else if 'R' = 'C' then _ else .error .addressMalformed) = _
      rw [if_pos rfl, hmod n hb.2, mkView, if_neg (by omega)]
      have hw : M.width + 2 ^ 64 - 1 + 1 = M.width + 2 ^ 64 := by omega
      have hh : n + 2 ^ 64 - n + 1 = 1 + 2 ^ 64 := by omega
      rw [wrap64, wrap64, hw, hh, Nat.add_mod_right, Nat.add_mod_right,
        Nat.mod_eq_of_lt (by omega), Nat.mod_eq_of_lt (by omega)]
    · intro j hj1 hj2
      show getAt M (n + 1 - 1) (1 + j - 1) = .ok (M.entry n j)
      have e1 : n + 1 - 1 = n := by omega
      have e2 : 1 + j - 1 = j := by omega
      rw [e1, e2, getAt, if_pos (by exact ⟨h1, h2, hj1, hj2⟩)]
  · intro s n hv h2
    have hb := stoll_ok_bounds hv
    show (match stoll s with
      | .error er => .error er
      | .ok v =>
        let number : Nat := (v % (2 : Int) ^ 64).toNat
        if 'R' = 'R' then mkView M number 1 number M.width
        else if 'R' = 'C' then mkView M 1 number M.height number
        else .error .addressMalformed) = Except.error MatErr.outOfRange
    rw [hv]
    show (if 'R' = 'R' then mkView M ((n : Int) % (2 : Int) ^ 64).toNat 1
        ((n : Int) % (2 : Int) ^ 64).toNat M.width
      else if 'R' = 'C' then _ else .error .addressMalformed) = _
    rw [if_pos rfl, hmod n hb.2, mkView, if_pos (by omega)]
  · intro s hv h3 h4
    have h0 : stoll s = .ok ((0 : Nat) : Int) := hv
    have hb := stoll_ok_bounds hv
    show (match stoll s with
      | .error er => .error er
      | .ok v =>
        let number : Nat := (v % (2 : Int) ^ 64).toNat
        if 'R' = 'R' then mkView M number 1 number M.width
        else if 'R' = 'C' then mkView M 1 number M.height number
        else .error .addressMalformed) = Except.ok (⟨0, 1, M.width, 1⟩ : MatrixView)
    rw [h0]
    show (if 'R' = 'R' then mkView M (((0 : Nat) : Int) % (2 : Int) ^ 64).toNat 1
        (((0 : Nat) : Int) % (2 : Int) ^ 64).toNat M.width
      else if 'R' = 'C' then _ else .error .addressMalformed) = _
    rw [if_pos rfl, hmod 0 (by omega), mkView, if_neg (by omega)]
    have hw : M.width + 2 ^ 64 - 1 + 1 = M.width + 2 ^ 64 := by omega
    have hh : 0 + 2 ^ 64 - 0 + 1 = 1 + 2 ^ 64 := by omega
    rw [wrap64, wrap64, hw, hh, Nat.add_mod_right, Nat.add_mod_right,
      Nat.mod_eq_of_lt (by omega), Nat.mod_eq_of_lt (by omega)]
  · intro ch s v hr hc hv
    show (match stoll s with
      | .error er => .error er
      | .ok v =>
        let number : Nat := (v % (2 : Int) ^ 64).toNat
        if ch = 'R' then mkView M number 1 number M.width
        else if ch = 'C' then mkView M 1 number M.height number
        else .error .addressMalformed) = Except.error MatErr.addressMalformed
    rw [hv]
    show (if ch = 'R' then mkView M (v % (2 : Int) ^ 64).toNat 1
        (v % (2 : Int) ^ 64).toNat M.width
      else if ch = 'C' then mkView M 1 (v % (2 : Int) ^ 64).toNat M.height
        (v % (2 : Int) ^ 64).toNat
      else .error .addressMalformed) = _
    rw [if_neg hr, if_neg hc]
  · intro ch s hv
    show (match stoll s with
      | .error er => .error er
      | .ok v =>
        let number : Nat := (v % (2 : Int) ^ 64).toNat
        if ch = 'R' then mkView M number 1 number M.width
        else if ch = 'C' then mkView M 1 number M.height number
        else .error .addressMalformed) = Except.error MatErr.addressMalformed
    rw [hv]

/-- C8 counterexample: on a `1 × 1` matrix the address `R0` does not fail with
*out of range* as the claim requires — the addressor accepts it and returns a
height-1 view headed at row 0. -/
theorem C8_counterexample :
    okViewOf (addressor mU1 ['R', '0']) = some ⟨0, 1, 1, 1⟩ := by decide

/-- C8 witness: `R2` on the `3 × 3` matrix yields the full-width row-2 view and
its cell `(1, 2)` reads `M (2, 2)`. -/
theorem C8_witness :
    (stoll ['2'] = .ok ((2 : Nat) : Int) ∧ 1 ≤ 2 ∧ 2 ≤ mA5.height ∧
      1 ≤ mA5.width ∧ mA5.width < 2 ^ 64) ∧
      addressor mA5 ['R', '2'] = .ok ⟨2, 1, mA5.width, 1⟩ ∧
      viewAt mA5 ⟨2, 1, mA5.width, 1⟩ 1 2 = .ok (mA5.entry 2 2) := by
  have h := (C8_addressor_checks mA5).1 ['2'] 2 (by decide) (by decide) (by decide)
    (by decide) (by decide)
  exact ⟨⟨by decide, by decide, by decide, by decide, by decide⟩,
    h.1, h.2 2 (by decide) (by decide)⟩

/-- C6 (amended): `setAt (r, c, sub)` fails with *out of range* exactly when
some target cell of the overlay would lie outside the receiving matrix — but
the validation is interleaved with the mutation (each write goes through
`map::at` in row-major order), so on failure the cells written before the first
out-of-range target keep their new values; the matrix can be left partially
modified (see the counterexample theorem). -/
theorem C6_setAt_range_check (M sub : Matrix) (r c : Nat)
    (h1 : 1 ≤ sub.height) (h2 : 1 ≤ sub.width) :
    ((setAt M r c sub).1 = none ↔
      1 ≤ r ∧ 1 ≤ c ∧ r + sub.height - 1 ≤ M.height ∧ c + sub.width - 1 ≤ M.width) ∧
    ((setAt M r c sub).1 = some .outOfRange ↔
      ¬(1 ≤ r ∧ 1 ≤ c ∧ r + sub.height - 1 ≤ M.height ∧
        c + sub.width - 1 ≤ M.width)) := by
  have hspec := setAtGo_spec r c sub (cellsList sub.height sub.width) M
  have hor : (setAt M r c sub).1 = none ∨ (setAt M r c sub).1 = some .outOfRange :=
    hspec.2.1
  have hiff : (setAt M r c sub).1 = none ↔
      1 ≤ r ∧ 1 ≤ c ∧ r + sub.height - 1 ≤ M.height ∧ c + sub.width - 1 ≤ M.width := by
    rw [setAt, hspec.2.2]
    constructor
    · intro h
      have hA := h (1, 1) (mem_cellsList.mpr (by omega))
      have hB := h (sub.height, sub.width) (mem_cellsList.mpr (by omega))
      unfold inB at hA hB
      omega
    · intro h p hp
      have hm := mem_cellsList.mp hp
      unfold inB
      omega
  refine ⟨hiff, ?_, ?_⟩
  · intro h hcond
    have h0 := hiff.mpr hcond
    rw [h0] at h
    cases h
  · intro h
    rcases hor with h0 | h0
    · exact absurd (hiff.mp h0) h
    · exact h0

/-- C6 counterexample: overlaying `{{9,9}}` at `(1, 2)` of the `2 × 2` matrix
`{{1,2},{3,4}}` fails with *out of range* (target `(1, 3)` is outside), yet the
receiving matrix is not left unchanged: its cell `(1, 2)` has already been
overwritten with 9 (it was 2). -/
theorem C6_counterexample :
    (setAt mS1 1 2 mOv9).1 = some .outOfRange ∧
    (setAt mS1 1 2 mOv9).2.entry 1 2 = 9 ∧ mS1.entry 1 2 = 2 := by
  decide

/-- C6 witness: the same out-of-range overlay, established through the general
range-check theorem. -/
theorem C6_witness :
    (1 ≤ mOv9.height ∧ 1 ≤ mOv9.width) ∧
      (setAt mS1 1 2 mOv9).1 = some .outOfRange :=
  ⟨by decide,
    (C6_setAt_range_check mS1 mOv9 1 2 (by decide) (by decide)).2.mpr (by decide)⟩

/-- C4: assigning an equal-shape matrix to a (well-formed, in-bounds) view
succeeds and writes exactly the source cells inside the view's rectangle,
leaving every other cell of the underlying matrix unchanged; in particular the
S5 scenario: assigning `{{0,0,0}}` to the view `R2` of
`{{1,2,3},{4,5,6},{7,8,9}}` yields `{{1,2,3},{0,0,0},{7,8,9}}`. -/
theorem C4_view_assignment_frame :
    (∀ (src rhs : Matrix) (V : MatrixView),
      1 ≤ V.headRow → 1 ≤ V.headColumn → 1 ≤ V.height → 1 ≤ V.width →
      V.headRow + V.height - 1 ≤ src.height →
      V.headColumn + V.width - 1 ≤ src.width →
      rhs.height = V.height → rhs.width = V.width →
      (assignView src V rhs).1 = none ∧
      (assignView src V rhs).2.height = src.height ∧
      (assignView src V rhs).2.width = src.width ∧
      ∀ i j,
        ((V.headRow ≤ i ∧ i < V.headRow + V.height ∧
          V.headColumn ≤ j ∧ j < V.headColumn + V.width) →
          (assignView src V rhs).2.entry i j =
            rhs.entry (i + 1 - V.headRow) (j + 1 - V.headColumn)) ∧
        (¬(V.headRow ≤ i ∧ i < V.headRow + V.height ∧
          V.headColumn ≤ j ∧ j < V.headColumn + V.width) →
          (assignView src V rhs).2.entry i j = src.entry i j)) ∧
    matEqb (assignView mA5 vR2 mZrow).2 mS5res := by
  constructor
  · intro src rhs V hr1 hc1 hvh hvw hbh hbw hsh hsw
    have hcond : rhs.width = V.width ∧ rhs.height = V.height := ⟨hsw, hsh⟩
    have hAV : assignView src V rhs = setAt src V.headRow V.headColumn rhs := by
      rw [assignView, if_pos hcond]
    have hpos : ∀ p ∈ cellsList rhs.height rhs.width, 1 ≤ p.1 ∧ 1 ≤ p.2 := by
      intro p hp
      have hm := mem_cellsList.mp hp
      exact ⟨hm.1, hm.2.2.1⟩
    have hall : ∀ p ∈ cellsList rhs.height rhs.width,
        inB src (V.headRow + p.1 - 1) (V.headColumn + p.2 - 1) := by
      intro p hp
      have hm := mem_cellsList.mp hp
      unfold inB
      omega
    have hspec := setAtGo_spec V.headRow V.headColumn rhs
      (cellsList rhs.height rhs.width) src
    have hent := setAtGo_entries V.headRow V.headColumn rhs
      (cellsList rhs.height rhs.width) src hpos hall
    rw [hAV]
    refine ⟨hspec.2.2.mpr hall, hspec.1.1, hspec.1.2, ?_⟩
    intro i j
    have h2 := hent i j
    constructor
    · intro hrect
      have hex : ∃ p ∈ cellsList rhs.height rhs.width,
          V.headRow + p.1 - 1 = i ∧ V.headColumn + p.2 - 1 = j := by
        refine ⟨(i + 1 - V.headRow, j + 1 - V.headColumn),
          mem_cellsList.mpr (by omega), by omega, by omega⟩
      exact h2.1 hex
    · intro hnrect
      have hnone : ∀ p ∈ cellsList rhs.height rhs.width,
          ¬(V.headRow + p.1 - 1 = i ∧ V.headColumn + p.2 - 1 = j) := by
        intro p hp hcon
        have hm := mem_cellsList.mp hp
        exact hnrect (by omega)
      exact h2.2 hnone
  · decide

/-- C4 witness: the S5 instance satisfies the hypotheses, the assignment
succeeds, and the frame theorem applies. -/
theorem C4_witness :
    (1 ≤ vR2.headRow ∧ 1 ≤ vR2.headColumn ∧ 1 ≤ vR2.height ∧ 1 ≤ vR2.width ∧
      vR2.headRow + vR2.height - 1 ≤ mA5.height ∧
      vR2.headColumn + vR2.width - 1 ≤ mA5.width ∧
      mZrow.height = vR2.height ∧ mZrow.width = vR2.width) ∧
      (assignView mA5 vR2 mZrow).1 = none :=
  ⟨by decide,
    (C4_view_assignment_frame.1 mA5 mZrow vR2 (by decide) (by decide) (by decide)
      (by decide) (by decide) (by decide) (by decide) (by decide)).1⟩

/-- C10: `MatrixView` cell access never consults the view's own apparent
bounds: reading local `(r, c)` through a view succeeds with the source cell
`(headRow + r − 1, headColumn + c − 1)` exactly when that translated cell lies
inside the source (even when `r` exceeds the view's height or `c` its width,
since the statement holds for every `MatrixView` record whatever its recorded
dimensions), fails with *out of range* exactly otherwise, and writing behaves
the same way. -/
theorem C10_view_access_unchecked (M : Matrix) (V : MatrixView) (r c : Nat) (v : ℚ) :
    (viewAt M V r c = .ok (M.entry (V.headRow + r - 1) (V.headColumn + c - 1)) ↔
      inB M (V.headRow + r - 1) (V.headColumn + c - 1)) ∧
    (viewAt M V r c = .error .outOfRange ↔
      ¬ inB M (V.headRow + r - 1) (V.headColumn + c - 1)) ∧
    ((viewWrite M V r c v).isSome ↔
      inB M (V.headRow + r - 1) (V.headColumn + c - 1)) := by
  unfold viewAt getAt viewWrite writeCell
  by_cases h : inB M (V.headRow + r - 1) (V.headColumn + c - 1) <;> simp [h]

/-- C5 (amended): the `MatrixView` constructor fails with *out of range*
exactly when one of the four corner coordinates exceeds the source's
dimensions; it does not validate `1 ≤ r1`, `1 ≤ c1`, `r1 ≤ r2` or `c1 ≤ c2`,
and on acceptance it records the apparent dimensions computed in wrapping
64-bit `coord_t` arithmetic (which for a well-ordered rectangle are
`c2 − c1 + 1` and `r2 − r1 + 1`). -/
theorem C5_mkView_checks (M : Matrix) (r1 c1 r2 c2 : Nat) :
    (mkView M r1 c1 r2 c2 = .error .outOfRange ↔
      r1 > M.height ∨ r2 > M.height ∨ c1 > M.width ∨ c2 > M.width) ∧
    (r1 ≤ M.height → r2 ≤ M.height → c1 ≤ M.width → c2 ≤ M.width →
      mkView M r1 c1 r2 c2 =
        .ok ⟨r1, c1, wrap64 (c2 + 2 ^ 64 - c1 + 1), wrap64 (r2 + 2 ^ 64 - r1 + 1)⟩) ∧
    (1 ≤ r1 → r1 ≤ r2 → r2 ≤ M.height → 1 ≤ c1 → c1 ≤ c2 → c2 ≤ M.width →
      M.height < 2 ^ 64 → M.width < 2 ^ 64 →
      mkView M r1 c1 r2 c2 = .ok ⟨r1, c1, c2 + 1 - c1, r2 + 1 - r1⟩) := by
  refine ⟨?_, ?_, ?_⟩
  · unfold mkView
    by_cases h : r1 > M.height ∨ r2 > M.height ∨ c1 > M.width ∨ c2 > M.width <;> simp [h]
  · intro h1 h2 h3 h4
    unfold mkView
    rw [if_neg (by omega)]
  · intro h1 h2 h3 h4 h5 h6 h7 h8
    unfold mkView
    rw [if_neg (by omega)]
    have hw : c2 + 2 ^ 64 - c1 + 1 = (c2 + 1 - c1) + 2 ^ 64 := by omega
    have hh : r2 + 2 ^ 64 - r1 + 1 = (r2 + 1 - r1) + 2 ^ 64 := by omega
    rw [wrap64, wrap64, hw, hh, Nat.add_mod_right, Nat.add_mod_right,
      Nat.mod_eq_of_lt (by omega), Nat.mod_eq_of_lt (by omega)]

/-- C5 counterexample: the claim requires `1 ≤ r1`, but the constructor accepts
`r1 = r2 = 0` on a nonempty source (returning a view headed at row 0) instead
of failing with *out of range*. -/
theorem C5_counterexample : mkView mS1 0 1 0 1 = .ok ⟨0, 1, 1, 1⟩ := by decide

/-- C5 witness: a well-ordered rectangle inside a `2 × 2` source is accepted
with the apparent dimensions of the claim. -/
theorem C5_witness :
    (1 ≤ 1 ∧ 1 ≤ 2 ∧ 2 ≤ mS1.height ∧ 1 ≤ mS1.width ∧ mS1.height < 2 ^ 64) ∧
      mkView mS1 1 1 2 2 = .ok ⟨1, 1, 2, 2⟩ :=
  ⟨by decide,
    (C5_mkView_checks mS1 1 1 2 2).2.2 (by decide) (by decide) (by decide) (by decide)
      (by decide) (by decide) (by decide) (by decide)⟩

/-- C2: on a (nonempty) square matrix, `inverse()` fails with *singular*
exactly when the library's `determinant()` value is zero, succeeds otherwise,
and `determinant()` itself succeeds on square input; the input matrix is only
read (the model's `inverse` consumes `M` by value and the elimination acts on
the internal copies, mirroring the C++ `tmp`/`inverse` locals). -/
theorem C2_inverse_singular_iff (M : Matrix) (hsq : M.height = M.width)
    (_hpos : 1 ≤ M.height) :
    determinant M = .ok (detN M.width M) ∧
    (inverse M = .error .singular ↔ detN M.width M = 0) ∧
    (detN M.width M ≠ 0 → ∃ B, inverse M = .ok B) := by
  have hne : ¬ M.width ≠ M.height := by omega
  unfold inverse determinant
  rw [if_neg hne]
  by_cases hd : detN M.width M = 0 <;> simp [hd]

/-- C2 witness: the all-ones `2 × 2` matrix is square, has determinant 0, and
`inverse()` fails on it with *singular*. -/
theorem C2_witness :
    (mOnes2.height = mOnes2.width ∧ 1 ≤ mOnes2.height) ∧
      inverse mOnes2 = .error .singular :=
  ⟨⟨rfl, by decide⟩,
    (C2_inverse_singular_iff mOnes2 rfl (by decide)).2.1.mpr (by decide)⟩


theorem hconcatE_dims_entry (A B : Matrix) (hAh : 1 ≤ A.height) (hAw : 1 ≤ A.width)
    (hBw : 1 ≤ B.width) (hBh : B.height = A.height) :
    (hconcatE A B).height = A.height ∧ (hconcatE A B).width = A.width + B.width ∧
    ∀ r c, (hconcatE A B).entry r c =
      round6 (round6 (if c ≤ A.width then round6 (A.entry r c)
        else round6 (B.entry r (c - A.width)))) := by
  have hTA : transposed A = transposedE A := transposed_of_pos A hAh hAw
  have hTB : transposed B = transposedE B := transposed_of_pos B (by omega) hBw
  rw [hconcatE, hTA, hTB]
  have hV : vconcatE (transposedE A) (transposedE B) =
      ⟨A.width + B.width, A.height, fun i j => round6 (if i ≤ A.width
        then round6 (A.entry j i) else round6 (B.entry j (i - A.width)))⟩ := by
    rw [vconcatE, if_neg (by show ¬ A.height = 0; omega)]
    rfl
  rw [hV, transposed_of_pos _ (by show 1 ≤ A.width + B.width; omega)
    (by show 1 ≤ A.height; omega)]
  exact ⟨rfl, rfl, fun r c => rfl⟩

theorem specDetN_congr (n : Nat) : ∀ (f g : Nat → Nat → ℚ),
    (∀ r c, 1 ≤ r → r ≤ n → 1 ≤ c → c ≤ n → f r c = g r c) →
    specDetN n f = specDetN n g := by
  induction n using Nat.strong_induction_on with
  | _ n ih =>
    rcases n with _ | _ | _ | n
    · intro f g h
      rfl
    · intro f g h
      exact h 1 1 (by omega) (by omega) (by omega) (by omega)
    · intro f g h
      show f 1 1 * f 2 2 - f 1 2 * f 2 1 = g 1 1 * g 2 2 - g 1 2 * g 2 1
      rw [h 1 1 (by omega) (by omega) (by omega) (by omega),
        h 2 2 (by omega) (by omega) (by omega) (by omega),
        h 1 2 (by omega) (by omega) (by omega) (by omega),
        h 2 1 (by omega) (by omega) (by omega) (by omega)]
    · intro f g h
      show List.sum _ = List.sum _
      congr 1
      apply List.map_congr_left
      intro k hk
      have hklt : k < n + 3 := List.mem_range.mp hk
      rw [h 1 (k + 1) (by omega) (by omega) (by omega) (by omega)]
      congr 1
      apply ih (n + 2) (by omega)
      intro r c hr1 hr2 hc1 hc2
      by_cases hc : c < k + 1
      · rw [if_pos hc]
        exact h (r + 1) c (by omega) (by omega) (by omega) (by omega)
      · rw [if_neg hc]
        exact h (r + 1) (c + 1) (by omega) (by omega) (by omega) (by omega)

theorem detN_congr (n : Nat) : ∀ (M M2 : Matrix),
    (∀ r c, 1 ≤ r → r ≤ n → 1 ≤ c → c ≤ n → M.entry r c = M2.entry r c) →
    detN n M = detN n M2 := by
  induction n using Nat.strong_induction_on with
  | _ n ih =>
    rcases n with _ | _ | _ | n
    · intro M M2 h
      rfl
    · intro M M2 h
      exact h 1 1 (by omega) (by omega) (by omega) (by omega)
    · intro M M2 h
      show qsub (qmul (M.entry 1 1) (M.entry 2 2)) (qmul (M.entry 1 2) (M.entry 2 1)) =
        qsub (qmul (M2.entry 1 1) (M2.entry 2 2)) (qmul (M2.entry 1 2) (M2.entry 2 1))
      rw [h 1 1 (by omega) (by omega) (by omega) (by omega),
        h 2 2 (by omega) (by omega) (by omega) (by omega),
        h 1 2 (by omega) (by omega) (by omega) (by omega),
        h 2 1 (by omega) (by omega) (by omega) (by omega)]
    · intro M M2 h
      show qsum _ = qsum _
      congr 1
      apply List.map_congr_left
      intro k hk
      have hklt : k < n + 3 := List.mem_range.mp hk
      have h1 : M.entry 1 (k + 1) = M2.entry 1 (k + 1) :=
        h 1 (k + 1) (by omega) (by omega) (by omega) (by omega)
      by_cases hj1 : k + 1 = 1
      · rw [if_pos hj1, if_pos hj1, h1]
        congr 1
        apply ih (n + 2) (by omega)
        intro r c hr1 hr2 hc1 hc2
        exact h (2 + r - 1) (2 + c - 1) (by omega) (by omega) (by omega) (by omega)
      · by_cases hj2 : k + 1 = n + 3
        · rw [if_neg hj1, if_neg hj1, if_pos hj2, if_pos hj2, h1]
          congr 1
          apply ih (n + 2) (by omega)
          intro r c hr1 hr2 hc1 hc2
          exact h (2 + r - 1) (1 + c - 1) (by omega) (by omega) (by omega) (by omega)
        · rw [if_neg hj1, if_neg hj1, if_neg hj2, if_neg hj2, h1]
          congr 1
          apply ih (n + 2) (by omega)
          intro r c hr1 hr2 hc1 hc2
          have hE := (hconcatE_dims_entry (viewRect M 2 1 (n + 3) (k + 1 - 1))
            (viewRect M 2 (k + 1 + 1) (n + 3) (n + 3))
            (by show 1 ≤ n + 3 + 1 - 2; omega)
            (by show 1 ≤ k + 1 - 1 + 1 - 1; omega)
            (by show 1 ≤ n + 3 + 1 - (k + 1 + 1); omega) rfl).2.2 r c
          have hE2 := (hconcatE_dims_entry (viewRect M2 2 1 (n + 3) (k + 1 - 1))
            (viewRect M2 2 (k + 1 + 1) (n + 3) (n + 3))
            (by show 1 ≤ n + 3 + 1 - 2; omega)
            (by show 1 ≤ k + 1 - 1 + 1 - 1; omega)
            (by show 1 ≤ n + 3 + 1 - (k + 1 + 1); omega) rfl).2.2 r c
          have hw1 : (viewRect M 2 1 (n + 3) (k + 1 - 1)).width = k := by
            show k + 1 - 1 + 1 - 1 = k
            omega
          have hw2 : (viewRect M2 2 1 (n + 3) (k + 1 - 1)).width = k := by
            show k + 1 - 1 + 1 - 1 = k
            omega
          rw [hw1] at hE
          rw [hw2] at hE2
          rw [hE, hE2]
          by_cases hc : c ≤ k
          · rw [if_pos hc, if_pos hc]
            have hx : (viewRect M 2 1 (n + 3) (k + 1 - 1)).entry r c =
                (viewRect M2 2 1 (n + 3) (k + 1 - 1)).entry r c :=
              h (2 + r - 1) (1 + c - 1) (by omega) (by omega) (by omega) (by omega)
            rw [hx]
          · rw [if_neg hc, if_neg hc]
            have hx : (viewRect M 2 (k + 1 + 1) (n + 3) (n + 3)).entry r (c - k) =
                (viewRect M2 2 (k + 1 + 1) (n + 3) (n + 3)).entry r (c - k) :=
              h (2 + r - 1) (k + 1 + 1 + (c - k) - 1)
                (by omega) (by omega) (by omega) (by omega)
            rw [hx]

/-- The library determinant coincides with the specification's exact cofactor
expansion whenever every (in-range) entry is already a 6-significant-digit
value, so that the re-materialization of the interior minors is lossless. -/
theorem detN_eq_specDetN (n : Nat) : ∀ (M : Matrix),
    (∀ r c, 1 ≤ r → r ≤ n → 1 ≤ c → c ≤ n → round6 (M.entry r c) = M.entry r c) →
    detN n M = specDetN n M.entry := by
  induction n using Nat.strong_induction_on with
  | _ n ih =>
    rcases n with _ | _ | _ | n
    · intro M h
      rfl
    · intro M h
      rfl
    · intro M h
      show qsub (qmul (M.entry 1 1) (M.entry 2 2)) (qmul (M.entry 1 2) (M.entry 2 1)) =
        M.entry 1 1 * M.entry 2 2 - M.entry 1 2 * M.entry 2 1
      rw [qsub_eq, qmul_eq, qmul_eq]
    · intro M h
      show qsum _ = List.sum _
      rw [qsum_eq]
      congr 1
      apply List.map_congr_left
      intro k hk
      have hklt : k < n + 3 := List.mem_range.mp hk
      by_cases hj1 : k + 1 = 1
      · rw [if_pos hj1, qmul_eq]
        have hs : sgnq (k + 1) = 1 := by
          rw [hj1]
          decide
        rw [hs, one_mul]
        congr 1
        have hclean1 : ∀ r c, 1 ≤ r → r ≤ n + 2 → 1 ≤ c → c ≤ n + 2 →
            round6 ((viewRect M 2 2 (n + 3) (n + 3)).entry r c) =
              (viewRect M 2 2 (n + 3) (n + 3)).entry r c := by
          intro r c hr1 hr2 hc1 hc2
          exact h (2 + r - 1) (2 + c - 1) (by omega) (by omega) (by omega) (by omega)
        rw [ih (n + 2) (by omega) _ hclean1]
        apply specDetN_congr
        intro r c hr1 hr2 hc1 hc2
        rw [hj1, if_neg (by omega : ¬ c < 1)]
        show M.entry (2 + r - 1) (2 + c - 1) = M.entry (r + 1) (c + 1)
        have e1 : 2 + r - 1 = r + 1 := by omega
        have e2 : 2 + c - 1 = c + 1 := by omega
        rw [e1, e2]
      · by_cases hj2 : k + 1 = n + 3
        · rw [if_neg hj1, if_pos hj2, qmul_eq, qmul_eq]
          congr 1
          have hclean1 : ∀ r c, 1 ≤ r → r ≤ n + 2 → 1 ≤ c → c ≤ n + 2 →
              round6 ((viewRect M 2 1 (n + 3) (n + 2)).entry r c) =
                (viewRect M 2 1 (n + 3) (n + 2)).entry r c := by
            intro r c hr1 hr2 hc1 hc2
            exact h (2 + r - 1) (1 + c - 1) (by omega) (by omega) (by omega) (by omega)
          rw [ih (n + 2) (by omega) _ hclean1]
          apply specDetN_congr
          intro r c hr1 hr2 hc1 hc2
          rw [hj2, if_pos (by omega : c < n + 3)]
          show M.entry (2 + r - 1) (1 + c - 1) = M.entry (r + 1) c
          have e1 : 2 + r - 1 = r + 1 := by omega
          have e2 : 1 + c - 1 = c := by omega
          rw [e1, e2]
        · rw [if_neg hj1, if_neg hj2, qmul_eq, qmul_eq]
          congr 1
          have hW : detN (n + 2) (hconcatE (viewRect M 2 1 (n + 3) (k + 1 - 1))
              (viewRect M 2 (k + 1 + 1) (n + 3) (n + 3))) =
              detN (n + 2) ⟨n + 2, n + 2, fun r c =>
                M.entry (r + 1) (if c < k + 1 then c else c + 1)⟩ := by
            apply detN_congr
            intro r c hr1 hr2 hc1 hc2
            have hE := (hconcatE_dims_entry (viewRect M 2 1 (n + 3) (k + 1 - 1))
              (viewRect M 2 (k + 1 + 1) (n + 3) (n + 3))
              (by show 1 ≤ n + 3 + 1 - 2; omega)
              (by show 1 ≤ k + 1 - 1 + 1 - 1; omega)
              (by show 1 ≤ n + 3 + 1 - (k + 1 + 1); omega) rfl).2.2 r c
            have hw1 : (viewRect M 2 1 (n + 3) (k + 1 - 1)).width = k := by
              show k + 1 - 1 + 1 - 1 = k
              omega
            rw [hw1] at hE
            rw [hE]
            show _ = M.entry (r + 1) (if c < k + 1 then c else c + 1)
            by_cases hc : c < k + 1
            · rw [if_pos (by omega : c ≤ k), if_pos hc]
              have hidx : (viewRect M 2 1 (n + 3) (k + 1 - 1)).entry r c =
                  M.entry (r + 1) c := by
                show M.entry (2 + r - 1) (1 + c - 1) = M.entry (r + 1) c
                have e1 : 2 + r - 1 = r + 1 := by omega
                have e2 : 1 + c - 1 = c := by omega
                rw [e1, e2]
              rw [hidx, h (r + 1) c (by omega) (by omega) (by omega) (by omega),
                h (r + 1) c (by omega) (by omega) (by omega) (by omega),
                h (r + 1) c (by omega) (by omega) (by omega) (by omega)]
            · rw [if_neg (by omega : ¬ c ≤ k), if_neg hc]
              have hidx : (viewRect M 2 (k + 1 + 1) (n + 3) (n + 3)).entry r (c - k) =
                  M.entry (r + 1) (c + 1) := by
                show M.entry (2 + r - 1) (k + 1 + 1 + (c - k) - 1) = M.entry (r + 1) (c + 1)
                have e1 : 2 + r - 1 = r + 1 := by omega
                have e2 : k + 1 + 1 + (c - k) - 1 = c + 1 := by omega
                rw [e1, e2]
              rw [hidx, h (r + 1) (c + 1) (by omega) (by omega) (by omega) (by omega),
                h (r + 1) (c + 1) (by omega) (by omega) (by omega) (by omega),
                h (r + 1) (c + 1) (by omega) (by omega) (by omega) (by omega)]
          rw [hW]
          have hcleanW : ∀ r c, 1 ≤ r → r ≤ n + 2 → 1 ≤ c → c ≤ n + 2 →
              round6 ((⟨n + 2, n + 2, fun r c =>
                M.entry (r + 1) (if c < k + 1 then c else c + 1)⟩ : Matrix).entry r c) =
              (⟨n + 2, n + 2, fun r c =>
                M.entry (r + 1) (if c < k + 1 then c else c + 1)⟩ : Matrix).entry r c := by
            intro r c hr1 hr2 hc1 hc2
            show round6 (M.entry (r + 1) (if c < k + 1 then c else c + 1)) =
              M.entry (r + 1) (if c < k + 1 then c else c + 1)
            by_cases hc : c < k + 1
            · rw [if_pos hc]
              exact h (r + 1) c (by omega) (by omega) (by omega) (by omega)
            · rw [if_neg hc]
              exact h (r + 1) (c + 1) (by omega) (by omega) (by omega) (by omega)
          rw [ih (n + 2) (by omega) _ hcleanW]

/-- C3 (amended): `determinant()` follows the claim's cofactor expansion along
the first row exactly whenever every entry of the matrix is already exactly
representable in 6 significant decimal digits — the interior minors are
assembled by text-materializing concatenation, which rounds their entries —
and the two literal scenarios hold: `det {{1,2},{3,4}} = −2` and
`det {{6,1,1},{4,−2,5},{2,8,7}} = −306`. -/
theorem C3_determinant_cofactor :
    (∀ (n : Nat) (M : Matrix),
      (∀ r c, 1 ≤ r → r ≤ n → 1 ≤ c → c ≤ n → round6 (M.entry r c) = M.entry r c) →
      detN n M = specDetN n M.entry) ∧
    determinant mS1 = .ok (-2) ∧ determinant mS2 = .ok (-306) :=
  ⟨detN_eq_specDetN, by decide, by decide⟩

/-- C3 counterexample: for `{{0,1,0},{1234567,0,0},{0,0,1}}` the library
returns −1234570, while the claim's cofactor expansion along the first row
(written out literally with its sign convention) gives −1234567: the interior
minor `{{1234567,0},{0,1}}` is re-materialized at 6 significant digits before
its determinant is taken. -/
theorem C3_counterexample :
    detN 3 mC3 = -1234570 ∧
    sgnq 1 * mC3.entry 1 1 *
        (mC3.entry 2 2 * mC3.entry 3 3 - mC3.entry 2 3 * mC3.entry 3 2) +
      sgnq 2 * mC3.entry 1 2 *
        (mC3.entry 2 1 * mC3.entry 3 3 - mC3.entry 2 3 * mC3.entry 3 1) +
      sgnq 3 * mC3.entry 1 3 *
        (mC3.entry 2 1 * mC3.entry 3 2 - mC3.entry 2 2 * mC3.entry 3 1) =
      -1234567 ∧
    (-1234570 : ℚ) ≠ -1234567 := by
  refine ⟨by decide, ?_, by decide⟩
  simp only [← qmul_eq, ← qsub_eq, ← qadd_eq]
  decide

/-- C3 witness: the 6-digit-clean matrix `{{1,2},{3,4}}` satisfies the
cleanliness hypothesis and the library determinant equals the specification's
cofactor expansion on it. -/
theorem C3_witness :
    (∀ r c, 1 ≤ r → r ≤ 2 → 1 ≤ c → c ≤ 2 → round6 (mS1.entry r c) = mS1.entry r c) ∧
      detN 2 mS1 = specDetN 2 mS1.entry := by
  have hcl : ∀ r c, 1 ≤ r → r ≤ 2 → 1 ≤ c → c ≤ 2 →
      round6 (mS1.entry r c) = mS1.entry r c := by
    intro r c h1 h2 h3 h4
    interval_cases r <;> interval_cases c <;> decide
  exact ⟨hcl, C3_determinant_cofactor.1 2 mS1 hcl⟩

theorem ndigitsF_bounds : ∀ (fuel n : Nat), 1 ≤ n → n ≤ fuel →
    1 ≤ ndigitsF fuel n ∧ 10 ^ (ndigitsF fuel n - 1) ≤ n ∧ n < 10 ^ ndigitsF fuel n := by
  intro fuel
  induction fuel with
  | zero =>
    intro n h1 h2
    omega
  | succ fuel ih =>
    intro n h1 h2
    by_cases h10 : n < 10
    · have hval : ndigitsF (fuel + 1) n = 1 := by
        rw [ndigitsF, if_pos h10]
      rw [hval]
      simp only [Nat.sub_self, pow_zero, pow_one]
      omega
    · have hval : ndigitsF (fuel + 1) n = ndigitsF fuel (n / 10) + 1 := by
        rw [ndigitsF, if_neg h10]
      have hdiv : 1 ≤ n / 10 := by omega
      have hfuel : n / 10 ≤ fuel := by omega
      obtain ⟨hd1, hlow, hhigh⟩ := ih (n / 10) hdiv hfuel
      rw [hval]
      refine ⟨by omega, ?_, ?_⟩
      · have e : ndigitsF fuel (n / 10) + 1 - 1 = ndigitsF fuel (n / 10) := rfl
        rw [e]
        have hd2 : ndigitsF fuel (n / 10) - 1 + 1 = ndigitsF fuel (n / 10) := by omega
        rw [← hd2, pow_succ]
        omega
      · rw [pow_succ]
        omega

theorem nd_bounds (n : Nat) (h : 1 ≤ n) :
    1 ≤ nd n ∧ 10 ^ (nd n - 1) ≤ n ∧ n < 10 ^ nd n :=
  ndigitsF_bounds n n h le_rfl

/-- Correctness of the computed floor logarithm: for a nonzero rational,
`10 ^ qlog10i q ≤ |q| < 10 ^ (qlog10i q + 1)`. -/
theorem qlog10i_spec (q : ℚ) (hq : q ≠ 0) :
    (10:ℚ) ^ qlog10i q ≤ |q| ∧ |q| < (10:ℚ) ^ (qlog10i q + 1) := by
  have hnum : q.num ≠ 0 := Rat.num_ne_zero.mpr hq
  have ha : 1 ≤ q.num.natAbs := Int.natAbs_pos.mpr hnum
  have hb : 1 ≤ q.den := q.den_pos
  obtain ⟨hda1, hdaL, hdaH⟩ := nd_bounds q.num.natAbs ha
  obtain ⟨hdb1, hdbL, hdbH⟩ := nd_bounds q.den hb
  have hbQ : (0:ℚ) < (q.den : ℚ) := by exact_mod_cast hb
  have habs : |q| = (q.num.natAbs : ℚ) / (q.den : ℚ) := by
    conv_lhs => rw [← Rat.num_div_den q]
    rw [abs_div]
    congr 1
    · rw [Int.cast_natAbs, Int.cast_abs]
    · exact abs_of_nonneg (by positivity)
  set da := nd q.num.natAbs with hda_def
  set db := nd q.den with hdb_def
  set e0 : ℤ := (da : ℤ) - (db : ℤ) with he0_def
  have haL : (10:ℚ) ^ ((da:ℤ) - 1) ≤ (q.num.natAbs : ℚ) := by
    have h1 : (10:ℚ) ^ ((da:ℤ) - 1) = ((10 ^ (da - 1) : ℕ) : ℚ) := by
      rw [show (da:ℤ) - 1 = ((da - 1 : ℕ) : ℤ) by omega, zpow_natCast]
      push_cast
      ring
    rw [h1]
    exact_mod_cast hdaL
  have haH : (q.num.natAbs : ℚ) < (10:ℚ) ^ ((da:ℤ)) := by
    have h1 : (10:ℚ) ^ ((da:ℤ)) = ((10 ^ da : ℕ) : ℚ) := by
      rw [zpow_natCast]
      push_cast
      ring
    rw [h1]
    exact_mod_cast hdaH
  have hbL : (10:ℚ) ^ ((db:ℤ) - 1) ≤ (q.den : ℚ) := by
    have h1 : (10:ℚ) ^ ((db:ℤ) - 1) = ((10 ^ (db - 1) : ℕ) : ℚ) := by
      rw [show (db:ℤ) - 1 = ((db - 1 : ℕ) : ℤ) by omega, zpow_natCast]
      push_cast
      ring
    rw [h1]
    exact_mod_cast hdbL
  have hbH : (q.den : ℚ) < (10:ℚ) ^ ((db:ℤ)) := by
    have h1 : (10:ℚ) ^ ((db:ℤ)) = ((10 ^ db : ℕ) : ℚ) := by
      rw [zpow_natCast]
      push_cast
      ring
    rw [h1]
    exact_mod_cast hdbH
  have hbridge : (if 0 ≤ e0 then 10 ^ e0.toNat * q.den ≤ q.num.natAbs
      else q.den ≤ 10 ^ (-e0).toNat * q.num.natAbs) ↔ (10:ℚ) ^ e0 ≤ |q| := by
    rw [habs, le_div_iff₀ hbQ]
    by_cases he : 0 ≤ e0
    · rw [if_pos he]
      have h1 : (10:ℚ) ^ e0 = ((10 ^ e0.toNat : ℕ) : ℚ) := by
        conv_lhs => rw [← Int.toNat_of_nonneg he]
        rw [zpow_natCast]
        push_cast
        ring
      rw [h1]
      exact_mod_cast Iff.rfl
    · rw [if_neg he]
      have h1 : (10:ℚ) ^ e0 = (((10 ^ (-e0).toNat : ℕ) : ℚ))⁻¹ := by
        conv_lhs => rw [show e0 = -(((-e0).toNat : ℕ) : ℤ) by omega]
        rw [zpow_neg, zpow_natCast]
        congr 1
        push_cast
        ring
      rw [h1, inv_mul_le_iff₀ (by positivity)]
      exact_mod_cast Iff.rfl
  have hql : qlog10i q = if (if 0 ≤ e0 then 10 ^ e0.toNat * q.den ≤ q.num.natAbs
      else q.den ≤ 10 ^ (-e0).toNat * q.num.natAbs) then e0 else e0 - 1 := rfl
  rw [hql]
  by_cases hcond : (if 0 ≤ e0 then 10 ^ e0.toNat * q.den ≤ q.num.natAbs
      else q.den ≤ 10 ^ (-e0).toNat * q.num.natAbs)
  · rw [if_pos hcond]
    refine ⟨hbridge.mp hcond, ?_⟩
    rw [habs, div_lt_iff₀ hbQ]
    have hstep : (10:ℚ) ^ ((da:ℤ)) ≤ (10:ℚ) ^ (e0 + 1) * (q.den : ℚ) := by
      have h2 : (10:ℚ) ^ ((da:ℤ)) = (10:ℚ) ^ (e0 + 1) * (10:ℚ) ^ ((db:ℤ) - 1) := by
        rw [← zpow_add₀ (by norm_num : (10:ℚ) ≠ 0)]
        congr 1
        omega
      rw [h2]
      exact mul_le_mul_of_nonneg_left hbL (le_of_lt (zpow_pos (by norm_num) _))
    exact lt_of_lt_of_le haH hstep
  · rw [if_neg hcond]
    have hlt : |q| < (10:ℚ) ^ e0 := lt_of_not_le (fun hcontra => hcond (hbridge.mpr hcontra))
    refine ⟨?_, by rwa [show e0 - 1 + 1 = e0 by omega]⟩
    rw [habs, le_div_iff₀ hbQ]
    have hstep : (10:ℚ) ^ (e0 - 1) * (q.den:ℚ) < (10:ℚ) ^ ((da:ℤ) - 1) := by
      have h2 : (10:ℚ) ^ ((da:ℤ) - 1) = (10:ℚ) ^ (e0 - 1) * (10:ℚ) ^ ((db:ℤ)) := by
        rw [← zpow_add₀ (by norm_num : (10:ℚ) ≠ 0)]
        congr 1
        omega
      rw [h2]
      exact mul_lt_mul_of_pos_left hbH (zpow_pos (by norm_num) _)
    exact le_of_lt (lt_of_lt_of_le hstep haL)

/-- Uniqueness of the floor logarithm through its sandwich. -/
theorem qlog10i_unique (q : ℚ) (hq : q ≠ 0) (f : ℤ)
    (h1 : (10:ℚ) ^ f ≤ |q|) (h2 : |q| < (10:ℚ) ^ (f + 1)) : qlog10i q = f := by
  obtain ⟨g1, g2⟩ := qlog10i_spec q hq
  by_contra hne
  rcases lt_or_gt_of_ne hne with hlt | hgt
  · have hstep : (10:ℚ) ^ (qlog10i q + 1) ≤ (10:ℚ) ^ f :=
      zpow_le_zpow_right₀ (by norm_num) (by omega)
    linarith
  · have hstep : (10:ℚ) ^ (f + 1) ≤ (10:ℚ) ^ (qlog10i q) :=
      zpow_le_zpow_right₀ (by norm_num) (by omega)
    linarith

/-- The integer computation inside `round6` is rounding to nearest at the scale
`10 ^ (qlog10i q − 5)`. -/
theorem round6_eq_round (q : ℚ) (hq : q ≠ 0) :
    round6 q = ((round (q * (10:ℚ) ^ (5 - qlog10i q)) : ℤ) : ℚ) *
      (10:ℚ) ^ (qlog10i q - 5) := by
  have hnum : ¬ q.num = 0 := Rat.num_ne_zero.mpr hq
  have hden : (0:ℚ) < (q.den : ℚ) := by exact_mod_cast q.den_pos
  have hd1 : (q.den : ℚ) ≠ 0 := ne_of_gt hden
  set e := qlog10i q with he_def
  simp only [round6, if_neg hnum, ← he_def]
  by_cases h5 : 5 ≤ e
  · rw [if_pos h5]
    set p : ℕ := 10 ^ (e - 5).toNat with hp_def
    have hp0 : (0:ℚ) < (p:ℚ) := by positivity
    have hp2 : ((p:ℚ)) ≠ 0 := ne_of_gt hp0
    have hp1 : ((p : ℕ) : ℚ) = (10:ℚ) ^ (e - 5) := by
      rw [hp_def]
      push_cast
      rw [← zpow_natCast]
      congr 1
      exact Int.toNat_of_nonneg (by omega)
    have hinv : (10:ℚ) ^ (5 - e) = ((p:ℚ))⁻¹ := by
      rw [show (5:ℤ) - e = -(e - 5) by ring, zpow_neg, hp1]
    have hx : q * (10:ℚ) ^ (5 - e) + 1/2 =
        ((2 * q.num + (q.den : ℤ) * p : ℤ) : ℚ) / ((2 * q.den * p : ℕ) : ℚ) := by
      rw [hinv]
      conv_lhs => rw [← Rat.num_div_den q]
      push_cast
      field_simp
      ring
    have hfloor : round (q * (10:ℚ) ^ (5 - e)) =
        (2 * q.num + (q.den : ℤ) * p) / (2 * (q.den:ℤ) * p) := by
      rw [round_eq, hx, Rat.floor_intCast_div_natCast]
      congr 1
    rw [Rat.mkRat_one, hfloor]
    push_cast
    rw [hp1]
  · rw [if_neg h5]
    set p : ℕ := 10 ^ (5 - e).toNat with hp_def
    have hp0 : (0:ℚ) < (p:ℚ) := by positivity
    have hp2 : ((p:ℚ)) ≠ 0 := ne_of_gt hp0
    have hp1 : ((p : ℕ) : ℚ) = (10:ℚ) ^ (5 - e) := by
      rw [hp_def]
      push_cast
      rw [← zpow_natCast]
      congr 1
      exact Int.toNat_of_nonneg (by omega)
    have hinv : (10:ℚ) ^ (e - 5) = ((p:ℚ))⁻¹ := by
      rw [show e - 5 = -(5 - e) by ring, zpow_neg, hp1]
    have hx : q * (10:ℚ) ^ (5 - e) + 1/2 =
        ((2 * q.num * p + q.den : ℤ) : ℚ) / ((2 * q.den : ℕ) : ℚ) := by
      rw [← hp1]
      conv_lhs => rw [← Rat.num_div_den q]
      push_cast
      field_simp
      ring
    have hfloor : round (q * (10:ℚ) ^ (5 - e)) =
        (2 * q.num * p + (q.den:ℤ)) / (2 * (q.den:ℤ)) := by
      rw [round_eq, hx, Rat.floor_intCast_div_natCast]
      congr 1
    rw [Rat.mkRat_eq_div, hfloor, hinv]
    ring

theorem natPow_cast_qz (k : Nat) : ((10 ^ k : ℕ) : ℚ) = (10:ℚ) ^ ((k:ℤ)) := by
  rw [zpow_natCast]
  push_cast
  ring

theorem round6_zero : round6 0 = 0 := by decide

/-- Shape of a nonzero rounding: `round6 q` is an integer mantissa of 6 or 7
digits (the latter only as `10 ^ 6`, after a carry) times the scale
`10 ^ (qlog10i q − 5)`. -/
theorem round6_shape (q : ℚ) (hq : q ≠ 0) :
    round6 q = ((round (q * (10:ℚ) ^ (5 - qlog10i q)) : ℤ) : ℚ) *
      (10:ℚ) ^ (qlog10i q - 5) ∧
    10 ^ 5 ≤ (round (q * (10:ℚ) ^ (5 - qlog10i q))).natAbs ∧
    (round (q * (10:ℚ) ^ (5 - qlog10i q))).natAbs ≤ 10 ^ 6 := by
  refine ⟨round6_eq_round q hq, ?_, ?_⟩ <;>
  · set e := qlog10i q with he_def
    set x := q * (10:ℚ) ^ (5 - e) with hx_def
    obtain ⟨hL, hH⟩ := qlog10i_spec q hq
    have hp : (0:ℚ) < (10:ℚ) ^ ((5:ℤ) - e) := zpow_pos (by norm_num) _
    have habsx : |x| = |q| * (10:ℚ) ^ (5 - e) := by
      rw [hx_def, abs_mul, abs_of_pos hp]
    have hxL : (10:ℚ) ^ (5:ℤ) ≤ |x| := by
      rw [habsx]
      calc (10:ℚ) ^ (5:ℤ) = (10:ℚ) ^ e * (10:ℚ) ^ ((5:ℤ) - e) := by
            rw [← zpow_add₀ (by norm_num : (10:ℚ) ≠ 0)]
            congr 1
            ring
        _ ≤ |q| * (10:ℚ) ^ ((5:ℤ) - e) := mul_le_mul_of_nonneg_right hL (le_of_lt hp)
    have hxH : |x| < (10:ℚ) ^ (6:ℤ) := by
      rw [habsx]
      calc |q| * (10:ℚ) ^ ((5:ℤ) - e) < (10:ℚ) ^ (e + 1) * (10:ℚ) ^ ((5:ℤ) - e) :=
            mul_lt_mul_of_pos_right hH hp
        _ = (10:ℚ) ^ (6:ℤ) := by
            rw [← zpow_add₀ (by norm_num : (10:ℚ) ≠ 0)]
            congr 1
            ring
    have hrd : |x - ((round x : ℤ) : ℚ)| ≤ 1/2 := abs_sub_round x
    have htri : |x| - |((round x : ℤ) : ℚ)| ≤ |x - ((round x : ℤ) : ℚ)| :=
      abs_sub_abs_le_abs_sub _ _
    have htri2 : |((round x : ℤ) : ℚ)| - |x| ≤ |x - ((round x : ℤ) : ℚ)| := by
      have := abs_sub_abs_le_abs_sub ((round x : ℤ) : ℚ) x
      rwa [abs_sub_comm] at this
    have hcast : (((round x).natAbs : ℕ) : ℚ) = |((round x : ℤ) : ℚ)| := by
      rw [Int.cast_natAbs, Int.cast_abs]
    have h5v : (10:ℚ) ^ (5:ℤ) = 100000 := by norm_num
    have h6v : (10:ℚ) ^ (6:ℤ) = 1000000 := by norm_num
    first
    | · by_contra hcon
        push_neg at hcon
        have hle : ((round x).natAbs : ℚ) ≤ ((10 ^ 5 - 1 : ℕ) : ℚ) := by
          exact_mod_cast Nat.le_of_lt_succ (by omega)
        rw [hcast] at hle
        have : ((10 ^ 5 - 1 : ℕ) : ℚ) = 100000 - 1 := by norm_num
        linarith [hxL, htri]
    | · by_contra hcon
        push_neg at hcon
        have hge : ((10 ^ 6 + 1 : ℕ) : ℚ) ≤ ((round x).natAbs : ℚ) := by
          exact_mod_cast (by omega : 10 ^ 6 + 1 ≤ (round x).natAbs)
        rw [hcast] at hge
        have : ((10 ^ 6 + 1 : ℕ) : ℚ) = 1000000 + 1 := by norm_num
        linarith [hxH, htri2, hrd]

theorem intPow_cast_qz (k : Nat) : (((10:ℤ) ^ k : ℤ) : ℚ) = (10:ℚ) ^ ((k:ℤ)) := by
  rw [zpow_natCast]
  push_cast
  ring

/-- `round6` is idempotent: re-printing an already printed value changes nothing. -/
theorem round6_idem (q : ℚ) : round6 (round6 q) = round6 q := by
  by_cases hq : q = 0
  · rw [hq, round6_zero, round6_zero]
  · obtain ⟨hy, hlow, hhigh⟩ := round6_shape q hq
    set e := qlog10i q with he_def
    set m : ℤ := round (q * (10:ℚ) ^ ((5:ℤ) - e)) with hm_def
    have h10 : (10:ℚ) ≠ 0 := by norm_num
    have hzpos : ∀ z : ℤ, (0:ℚ) < (10:ℚ) ^ z := fun z => zpow_pos (by norm_num) z
    have hm0 : m ≠ 0 := by
      intro h0
      rw [h0] at hlow
      exact absurd hlow (by decide)
    have hy0 : round6 q ≠ 0 := by
      rw [hy]
      exact mul_ne_zero (Int.cast_ne_zero.mpr hm0) (ne_of_gt (hzpos _))
    have habsy : |round6 q| = (m.natAbs : ℚ) * (10:ℚ) ^ (e - 5) := by
      rw [hy, abs_mul, abs_of_pos (hzpos _), Int.cast_natAbs, Int.cast_abs]
    by_cases hcarry : m.natAbs = 10 ^ 6
    · have hyabs : |round6 q| = (10:ℚ) ^ (e + 1) := by
        rw [habsy, hcarry, natPow_cast_qz, ← zpow_add₀ h10]
        congr 1
        push_cast
        ring
      have hqy : qlog10i (round6 q) = e + 1 := by
        apply qlog10i_unique _ hy0
        · rw [hyabs]
        · rw [hyabs]
          exact zpow_lt_zpow_right₀ (by norm_num) (by omega)
      have hdvd : (10:ℤ) ∣ m := by
        have h1 : (10:ℤ).natAbs ∣ m.natAbs := by
          rw [hcarry]
          decide
        exact Int.natAbs_dvd_natAbs.mp h1
      obtain ⟨mq, hmq⟩ := hdvd
      have harg : round6 q * (10:ℚ) ^ ((5:ℤ) - (e + 1)) = ((mq : ℤ) : ℚ) := by
        rw [hy, hmq]
        push_cast
        rw [mul_assoc, ← zpow_add₀ h10, show e - 5 + ((5:ℤ) - (e + 1)) = -1 by ring,
          zpow_neg, zpow_one]
        calc (10:ℚ) * (mq:ℚ) * (10:ℚ)⁻¹ = (mq:ℚ) * ((10:ℚ) * (10:ℚ)⁻¹) := by ring
          _ = (mq:ℚ) := by rw [mul_inv_cancel₀ h10, mul_one]
      rw [round6_eq_round _ hy0, hqy, harg, round_intCast, hy, hmq]
      push_cast
      rw [show e + 1 - 5 = 1 + (e - 5) by ring, zpow_add₀ h10, zpow_one]
      ring
    · have hlt : m.natAbs < 10 ^ 6 := by omega
      have hqy : qlog10i (round6 q) = e := by
        apply qlog10i_unique _ hy0
        · rw [habsy]
          have h1 : (10:ℚ) ^ e = ((10 ^ 5 : ℕ) : ℚ) * (10:ℚ) ^ (e - 5) := by
            rw [natPow_cast_qz, ← zpow_add₀ h10]
            congr 1
            push_cast
            ring
          rw [h1]
          exact mul_le_mul_of_nonneg_right (by exact_mod_cast hlow) (le_of_lt (hzpos _))
        · rw [habsy]
          have h1 : (10:ℚ) ^ (e + 1) = ((10 ^ 6 : ℕ) : ℚ) * (10:ℚ) ^ (e - 5) := by
            rw [natPow_cast_qz, ← zpow_add₀ h10]
            congr 1
            push_cast
            ring
          rw [h1]
          exact mul_lt_mul_of_pos_right (by exact_mod_cast hlt) (hzpos _)
      have harg : round6 q * (10:ℚ) ^ ((5:ℤ) - e) = (m : ℚ) := by
        rw [hy, mul_assoc, ← zpow_add₀ h10,
          show e - 5 + ((5:ℤ) - e) = 0 by ring, zpow_zero, mul_one]
      rw [round6_eq_round _ hy0, hqy, harg, round_intCast]
      exact hy.symm

/-- C1 (corrected): transposing twice preserves the shape for a nonempty
matrix, but each cell of `(Aᵀ)ᵀ` is the 6-significant-digit decimal rounding of
the corresponding cell of `A` — bit-exact only for cells already representable
with 6 significant digits, because each `transposed()` materializes its result
by printing every cell with default stream formatting and re-parsing it. -/
theorem C1_transpose_involution (M : Matrix) (hh : 1 ≤ M.height) (hw : 1 ≤ M.width) :
    (transposed (transposed M)).height = M.height ∧
    (transposed (transposed M)).width = M.width ∧
    ∀ r c, (transposed (transposed M)).entry r c = round6 (M.entry r c) := by
  have h1 : transposed M = transposedE M := transposed_of_pos M hh hw
  have h2 : transposed (transposedE M) = transposedE (transposedE M) :=
    transposed_of_pos (transposedE M) hw hh
  rw [h1, h2]
  exact ⟨rfl, rfl, fun r c => round6_idem (M.entry r c)⟩

/-- C1 counterexample: the `1 × 1` matrix `{{1234567}}` has 7 significant
digits, and its double transpose holds `1234570`, not `1234567`. -/
theorem C1_counterexample : ¬ matEqb (transposed (transposed mT1)) mT1 := by decide

theorem C1_witness :
    1 ≤ mS1.height ∧ 1 ≤ mS1.width ∧
      (transposed (transposed mS1)).entry 1 2 = round6 (mS1.entry 1 2) :=
  ⟨by decide, by decide, (C1_transpose_involution mS1 (by decide) (by decide)).2.2 1 2⟩

/-- C9 (corrected): `transposed()`, `identity(n)`, vertical and horizontal
concatenation, and matrix multiplication all materialize their results by
printing every cell with default stream formatting (6 significant decimal
digits) and re-parsing the text. Each transpose/concatenation cell is the
6-digit rounding of the corresponding source cell, and each identity cell is an
exactly re-parsed `0`/`1` literal; but a multiplication cell is the 6-digit
rounding of the dot product of the left row with the ALREADY-ROUNDED right
column (the right factor's column is materialized through `transposed()` before
accumulation), not of the exact dot product of the inputs. -/
theorem C9_materialization (A B M : Matrix) (n r c : Nat)
    (hh : 1 ≤ M.height) (hw : 1 ≤ M.width)
    (hAh : 1 ≤ A.height) (hAw : 1 ≤ A.width) (hBw : 1 ≤ B.width) :
    ((transposed M).entry r c = round6 (M.entry c r)) ∧
    ((identity n).entry r c = round6 (if r = c then 1 else 0)) ∧
    (A.width = B.width →
      vconcat A B = .ok (vconcatE A B) ∧
      (vconcatE A B).entry r c =
        round6 (if r ≤ A.height then A.entry r c else B.entry (r - A.height) c)) ∧
    (B.height = A.height →
      hconcat A B = .ok (hconcatE A B) ∧
      (hconcatE A B).entry r c =
        round6 (if c ≤ A.width then A.entry r c else B.entry r (c - A.width))) ∧
    (A.width = B.height →
      matMul A B = .ok (matMulE A B) ∧
      (matMulE A B).entry r c =
        round6 (((List.range A.width).map
          (fun k => A.entry r (k + 1) * round6 (B.entry (k + 1) c))).sum)) := by
  refine ⟨?_, ?_, ?_, ?_, ?_⟩
  · rw [transposed_of_pos M hh hw]
    rfl
  · show (if r = c then (1:ℚ) else 0) = round6 (if r = c then 1 else 0)
    by_cases hrc : r = c
    · rw [if_pos hrc]
      decide
    · rw [if_neg hrc]
      decide
  · intro hABw
    refine ⟨by rw [vconcat, if_neg (not_not_intro hABw)], ?_⟩
    rw [vconcatE, if_neg (by omega)]
  · intro hBh
    have hTA : transposed A = transposedE A := transposed_of_pos A hAh hAw
    have hTB : transposed B = transposedE B := transposed_of_pos B (by omega) hBw
    constructor
    · rw [hconcat, if_neg (not_not_intro hBh.symm), hTA, hTB, vconcat,
        if_neg (not_not_intro (show (transposedE A).width = (transposedE B).width from hBh.symm))]
      show Except.ok (transposed (vconcatE (transposedE A) (transposedE B))) =
        Except.ok (hconcatE A B)
      rw [hconcatE, hTA, hTB]
    · obtain ⟨-, -, hE⟩ := hconcatE_dims_entry A B hAh hAw hBw hBh
      rw [hE r c]
      by_cases hc : c ≤ A.width
      · rw [if_pos hc, if_pos hc, round6_idem, round6_idem]
      · rw [if_neg hc, if_neg hc, round6_idem, round6_idem]
  · intro hAB
    refine ⟨by rw [matMul, if_neg (not_not_intro hAB)], ?_⟩
    rw [matMulE, if_neg (by push_neg; omega)]
    show round6 (dotProd A B r c) = _
    congr 1
    rw [dotProd, qsum_eq]
    congr 1
    apply List.map_congr_left
    intro k _hk
    rw [qmul_eq]
    have hcol : transposed (colRect B c) = transposedE (colRect B c) :=
      transposed_of_pos _ (by show (1:ℕ) ≤ B.height + 1 - 1; omega)
        (by show (1:ℕ) ≤ c + 1 - c; omega)
    have h1 : (rowRect A r).entry 1 (k + 1) = A.entry r (k + 1) := by
      show A.entry (r + 1 - 1) (1 + (k + 1) - 1) = A.entry r (k + 1)
      have e1 : r + 1 - 1 = r := by omega
      have e2 : 1 + (k + 1) - 1 = k + 1 := by omega
      rw [e1, e2]
    have h2 : (transposed (colRect B c)).entry 1 (k + 1) = round6 (B.entry (k + 1) c) := by
      rw [hcol]
      show round6 (B.entry (1 + (k + 1) - 1) (c + 1 - 1)) = round6 (B.entry (k + 1) c)
      have e3 : 1 + (k + 1) - 1 = k + 1 := by omega
      have e4 : c + 1 - 1 = c := by omega
      rw [e3, e4]
    rw [h1, h2]

/-- C9 counterexample: for `{{1, 1}} * {{1234564}, {4}}` the stored cell is
`1234560` (the right column is re-materialized first, so `1234564` becomes
`1234560` before accumulation), while the 6-digit rounding of the exact dot
product `1234568` is `1234570`. -/
theorem C9_counterexample :
    (matMulE mA9 mB9).entry 1 1 = 1234560 ∧
    round6 (mA9.entry 1 1 * mB9.entry 1 1 + mA9.entry 1 2 * mB9.entry 2 1) = 1234570 ∧
    ((1234560 : ℚ) ≠ 1234570) := by
  refine ⟨by decide, ?_, by decide⟩
  simp only [← qmul_eq, ← qadd_eq]
  decide

theorem C9_witness :
    1 ≤ mS1.height ∧
      (transposed mS1).entry 1 2 = round6 (mS1.entry 2 1) :=
  ⟨by decide,
    (C9_materialization mS1 mS1 mS1 2 1 2 (by decide) (by decide) (by decide)
      (by decide) (by decide)).1⟩

end Mx
